import Mathlib

/-!
# Verification of the styx uncoordinated checkpointing subsystem

Shallow embedding of the uncoordinated snapshot recovery
(`worker/fault_tolerance/uncoordinated_snapshots.py`, class
`UncoordinatedSnapshotsMinio`) and of the out-of-band compactor
(`coordinator/uncoordinated_snapshot_compactor.py`).

Modelling conventions:

* The MinIO object store is modelled as an association list from keys
  (strings) to deserialized payloads.  `put_object` replaces the first
  entry with the same key or appends a fresh entry; `remove_object`
  drops every entry with the key; `get_object` + `msgpack_deserialization`
  is `storeGet` followed by a shape check (a state delta deserializes to a
  key-value map, a sequencer record to a 4-tuple; anything else is a
  runtime error in Python and an `Except.error` here).  Listing returns
  the stored keys filtered by prefix/suffix; the claims under study are
  insensitive to the listing order because both the worker and the
  compactor re-sort by parsed snapshot id.
* Python `dict` values are association lists; `d[k] = v` replaces the
  first binding or appends, `d.update(e)` folds that over `e`, `k in d`
  is `assocGet`, and truthiness of a dict is non-emptiness.
* Python exceptions (`ValueError` from `int`, missing objects, tuple
  unpack failures) are modelled by `Except Unit`.
* Python `int(s)` is modelled by `pyInt` (optional minus sign followed by
  decimal digits); rendering an int into an f-string is `intStr`.
* Opaque state values are fixed to `Int`; none of the code under study
  inspects them.
-/

namespace Styx

/-! ## Python-style string utilities -/

/-- Accumulating decimal reader: consumes the characters, failing on the
first non-digit.  Helper for `pyInt`. -/
def digitsValAux : Nat → List Char → Option Nat
  | acc, [] => some acc
  | acc, c :: cs =>
    if c.isDigit then digitsValAux (10 * acc + (c.toNat - 48)) cs else none

/-- Model of Python `int(s)` on the strings this system produces: an
optional minus sign followed by one or more decimal digits; everything
else raises `ValueError`, i.e. returns `none`. -/
def pyInt (s : String) : Option Int :=
  match s.data with
  | [] => none
  | c :: cs =>
    if c = '-' then
      if cs.isEmpty then none
      else (digitsValAux 0 cs).map (fun n => -(n : Int))
    else (digitsValAux 0 (c :: cs)).map (fun n => (n : Int))

/-- Digit characters of `n` (most significant first); `fuel` bounds the
recursion and any `fuel > n` is enough. -/
def natStrAux : Nat → Nat → List Char
  | 0, _ => []
  | fuel + 1, n =>
    if n < 10 then [Char.ofNat (48 + n)]
    else natStrAux fuel (n / 10) ++ [Char.ofNat (48 + n % 10)]

/-- Decimal rendering of a natural number. -/
def natStr (n : Nat) : List Char := natStrAux (n + 1) n

/-- Model of Python `str(i)` / f-string rendering for an integer: plain
decimal with a leading `-` for negatives (spec §6: "a plain decimal
integer with no padding"). -/
def intStr (i : Int) : String :=
  match i with
  | .ofNat n => ⟨natStr n⟩
  | .negSucc n => ⟨'-' :: natStr (n + 1)⟩

/-- Split a character list at every occurrence of `sep`; always returns
at least one (possibly empty) part.  Model of Python `str.split` with a
single-character separator. -/
def splitChar (sep : Char) : List Char → List (List Char)
  | [] => [[]]
  | c :: cs =>
    match splitChar sep cs with
    | [] => [[]]
    | p :: ps => if c = sep then [] :: p :: ps else (c :: p) :: ps

/-- Python `s.split(sep)` for a one-character separator. -/
def pySplit (sep : Char) (s : String) : List String :=
  (splitChar sep s.data).map (fun l => ⟨l⟩)

/-- Python `s.startswith(pre)`. -/
def strStarts (s pre : String) : Bool := pre.data.isPrefixOf s.data

/-- Python `s.endswith(suf)`. -/
def strEnds (s suf : String) : Bool := suf.data.isSuffixOf s.data

/-! ## Association lists (Python dicts) -/

/-- First binding of `k`, Python `d[k]` / `k in d`. -/
def assocGet {κ β : Type} [DecidableEq κ] : List (κ × β) → κ → Option β
  | [], _ => none
  | (k', v) :: rest, k => if k = k' then some v else assocGet rest k

/-- Python `d[k] = v`: replace the first binding of `k`, else append. -/
def assocSet {κ β : Type} [DecidableEq κ] : List (κ × β) → κ → β → List (κ × β)
  | [], k, v => [(k, v)]
  | (k', v') :: rest, k, v =>
    if k = k' then (k, v) :: rest else (k', v') :: assocSet rest k v

/-- Python `defaultdict` access followed by an in-place modification:
apply `f` to the binding of `k`, inserting `f dflt` if absent. -/
def assocModify {κ β : Type} [DecidableEq κ] : List (κ × β) → κ → β → (β → β) → List (κ × β)
  | [], k, dflt, f => [(k, f dflt)]
  | (k', v) :: rest, k, dflt, f =>
    if k = k' then (k, f v) :: rest else (k', v) :: assocModify rest k dflt f

/-- Python `d.update(e)`: last-write-wins per key, left to right over `e`. -/
def assocUpd {κ β : Type} [DecidableEq κ] (d e : List (κ × β)) : List (κ × β) :=
  e.foldl (fun acc kv => assocSet acc kv.1 kv.2) d

/-! ## Data model -/

/-- `(operator_name, partition)` as in `styx.common.types.OperatorPartition`. -/
abbrev OperatorPartition := String × Int

/-- A deserialized state delta: one operator partition's key-value pairs. -/
abbrev KVPairs := List (String × Int)

/-- Offset maps `dict[OperatorPartition, int]`. -/
abbrev Offsets := List (OperatorPartition × Int)

/-- The 4-tuple stored in a sequencer snapshot:
`(topic_partition_offsets, topic_partition_output_offsets, epoch, t_counter)`. -/
structure SeqRecord where
  inOffs : Offsets
  outOffs : Offsets
  epoch : Int
  tCounter : Int
deriving DecidableEq

/-- A deserialized object in the snapshot bucket: either a state delta
(key-value map) or a sequencer record (4-tuple). -/
inductive Payload where
  | kv (d : KVPairs)
  | seq (r : SeqRecord)
deriving DecidableEq

/-- The snapshot bucket: object key to deserialized payload. -/
abbrev Store := List (String × Payload)

/-- MinIO `get_object` by key. -/
def storeGet (s : Store) (k : String) : Option Payload := assocGet s k

/-- MinIO `put_object`: overwrite the object at `k`. -/
def storePut (s : Store) (k : String) (v : Payload) : Store := assocSet s k v

/-- MinIO `remove_object`: delete the object at `k` (no-op if absent). -/
def storeRemove (s : Store) (k : String) : Store :=
  s.filter (fun e => !(e.1 == k))

/-- `list_objects(prefix=pre)` filtered by `.endswith(".bin")`, as both the
worker recovery and the compactor do. -/
def listBin (store : Store) (pre : String) : List String :=
  (store.map Prod.fst).filter (fun k => strStarts k pre && strEnds k ".bin")

/-- `list_objects(recursive=True)` over the whole bucket filtered by
`.endswith(".bin")`, as in `start_uncoordinated_snapshot_compaction`. -/
def listBinAll (store : Store) : List String :=
  (store.map Prod.fst).filter (fun k => strEnds k ".bin")

/-- `get_object` + `msgpack_deserialization` used as a state-delta dict;
a missing object or a payload of the wrong shape raises. -/
def readKV (store : Store) (name : String) : Except Unit KVPairs :=
  match storeGet store name with
  | some (.kv d) => .ok d
  | _ => .error ()

/-- `get_object` + `msgpack_deserialization` unpacked as the sequencer
4-tuple; a missing object or a payload of the wrong shape raises. -/
def readSeq (store : Store) (name : String) : Except Unit SeqRecord :=
  match storeGet store name with
  | some (.seq r) => .ok r
  | _ => .error ()

/-! ## Snapshot addressing (`get_snapshot_path`, `get_sequencer_path`) -/

/-- `f"uncoordinated/{worker_id}/{operator_name}/{partition}/{snapshot_id}.bin"` -/
def get_snapshot_path (worker_id : Int) (operator_name : String)
    (partition : Int) (snapshot_id : Int) : String :=
  "uncoordinated/" ++ intStr worker_id ++ "/" ++ operator_name ++ "/" ++
    intStr partition ++ "/" ++ intStr snapshot_id ++ ".bin"

/-- `f"uncoordinated/{worker_id}/sequencer/{snapshot_id}.bin"` -/
def get_sequencer_path (worker_id : Int) (snapshot_id : Int) : String :=
  "uncoordinated/" ++ intStr worker_id ++ "/sequencer/" ++ intStr snapshot_id ++ ".bin"

/-- The listing prefix `f"uncoordinated/{worker_id}/{operator_name}/{partition}/"`
used by `retrieve_snapshot` for one operator partition. -/
def partitionDir (worker_id : Int) (op : OperatorPartition) : String :=
  "uncoordinated/" ++ intStr worker_id ++ "/" ++ op.1 ++ "/" ++ intStr op.2 ++ "/"

/-! ## Worker recovery (`UncoordinatedSnapshotsMinio.retrieve_snapshot`) -/

/-- `int(snapshot_file.split("/")[-1].split(".")[0])`. -/
def parseTrailingId (f : String) : Option Int :=
  pyInt (((pySplit '.' ((pySplit '/' f).getLastD ""))).headD "")

/-- The list comprehension
`[(int(f.split("/")[-1].split(".")[0]), f) for f in snapshot_files]`;
raises (errors) on the first key whose trailing segment is not an int. -/
def buildMergeOrderList : List String → Except Unit (List (Int × String))
  | [] => .ok []
  | f :: fs =>
    match parseTrailingId f with
    | none => .error ()
    | some i =>
      match buildMergeOrderList fs with
      | .error e => .error e
      | .ok rest => .ok ((i, f) :: rest)

/-- Stable insertion into a list sorted ascending by the first component:
the new element goes after all existing elements with key ≤ its own. -/
def insertByFst {α : Type} (x : Int × α) : List (Int × α) → List (Int × α)
  | [] => [x]
  | y :: ys => if x.1 < y.1 then x :: y :: ys else y :: insertByFst x ys

/-- Python `sorted(l, key=lambda item: item[0])`: stable, ascending. -/
def sortByFst {α : Type} (l : List (Int × α)) : List (Int × α) :=
  l.foldl (fun acc x => insertByFst x acc) []

/-- `snapshot_merge_order` of `retrieve_snapshot`: list the partition's
delta keys, parse their trailing snapshot ids, sort ascending. -/
def snapshot_merge_order (store : Store) (pre : String) :
    Except Unit (List (Int × String)) :=
  match buildMergeOrderList (listBin store pre) with
  | .error e => .error e
  | .ok l => .ok (sortByFst l)

/-- The per-partition merge loop of `retrieve_snapshot`:

```python
for sn_id, sn_name in snapshot_merge_order:
    if sn_id > snapshot_id:
        continue
    partition_data = msgpack_deserialization(...get_object(...).data)
    if operator_partition in data and partition_data:
        data[operator_partition].update(partition_data)
    else:
        data[operator_partition] = partition_data
```
-/
def mergeStateDeltas (store : Store) (snapshot_id : Int) (op : OperatorPartition) :
    List (Int × String) → List (OperatorPartition × KVPairs) →
    Except Unit (List (OperatorPartition × KVPairs))
  | [], data => .ok data
  | (sn_id, sn_name) :: rest, data =>
    if sn_id > snapshot_id then mergeStateDeltas store snapshot_id op rest data
    else
      match readKV store sn_name with
      | .error e => .error e
      | .ok pd =>
        let data' :=
          match assocGet data op with
          | some cur => if pd.isEmpty then assocSet data op pd
                        else assocSet data op (assocUpd cur pd)
          | none => assocSet data op pd
        mergeStateDeltas store snapshot_id op rest data'

/-- The outer `for operator_partition in registered_operators` loop of
`retrieve_snapshot`, threading the `data` dict. -/
def recoverPartitions (store : Store) (worker_id snapshot_id : Int) :
    List OperatorPartition → List (OperatorPartition × KVPairs) →
    Except Unit (List (OperatorPartition × KVPairs))
  | [], data => .ok data
  | op :: rest, data =>
    match snapshot_merge_order store (partitionDir worker_id op) with
    | .error e => .error e
    | .ok order =>
      match mergeStateDeltas store snapshot_id op order data with
      | .error e => .error e
      | .ok data' => recoverPartitions store worker_id snapshot_id rest data'

/-- The sequencer listing + sort of `retrieve_snapshot`. -/
def sequencer_merge_order (store : Store) (worker_id : Int) :
    Except Unit (List (Int × String)) :=
  match buildMergeOrderList
      (listBin store ("uncoordinated/" ++ intStr worker_id ++ "/sequencer/")) with
  | .error e => .error e
  | .ok l => .ok (sortByFst l)

/-- The sequencer replay loop of `retrieve_snapshot`: each qualifying
record wholesale replaces the four accumulator variables. -/
def seqFold (store : Store) (snapshot_id : Int) :
    List (Int × String) → SeqRecord → Except Unit SeqRecord
  | [], acc => .ok acc
  | (sn_id, sn_name) :: rest, acc =>
    if sn_id > snapshot_id then seqFold store snapshot_id rest acc
    else
      match readSeq store sn_name with
      | .error e => .error e
      | .ok r => seqFold store snapshot_id rest r

/-- The in-memory fields of `UncoordinatedSnapshotsMinio` that
`retrieve_snapshot` touches (the timing/progress fields are untouched by
it and omitted). -/
structure UncoordinatedSnapshotsMinio where
  worker_id : Int
  snapshot_id : Int
deriving DecidableEq

/-- The return value of `retrieve_snapshot`:
`(data, topic_partition_offsets, topic_partition_output_offsets, epoch, t_counter)`.
The offset components are `None` on the fresh-start path and dicts
otherwise, hence `Option`. -/
structure RetrieveResult where
  data : List (OperatorPartition × KVPairs)
  inOffs : Option Offsets
  outOffs : Option Offsets
  epoch : Int
  tCounter : Int
deriving DecidableEq

/-- `UncoordinatedSnapshotsMinio.retrieve_snapshot(snapshot_id, registered_operators)`.

The first component is the object after the call: the method assigns
`self.snapshot_id = snapshot_id + 1` before anything else, so the new
counter is reflected even when the rest of the method raises.  The second
component is the returned 5-tuple, or `error` when the Python code would
raise. -/
def retrieve_snapshot (self : UncoordinatedSnapshotsMinio) (store : Store)
    (snapshot_id : Int) (registered_operators : List OperatorPartition) :
    UncoordinatedSnapshotsMinio × Except Unit RetrieveResult :=
  let self' := { self with snapshot_id := snapshot_id + 1 }
  if snapshot_id = -1 then
    (self', .ok ⟨[], none, none, 0, 0⟩)
  else
    (self',
      match recoverPartitions store self.worker_id snapshot_id registered_operators [] with
      | .error e => .error e
      | .ok data =>
        match sequencer_merge_order store self.worker_id with
        | .error e => .error e
        | .ok so =>
          match seqFold store snapshot_id so ⟨[], [], 0, 0⟩ with
          | .error e => .error e
          | .ok r => .ok ⟨data, some r.inOffs, some r.outOffs, r.epoch, r.tCounter⟩)

/-! ## Compactor (`uncoordinated_snapshot_compactor.py`) -/

/-- The per-partition lists inside one worker's snapshot group. -/
abbrev GroupEntry := List (Int × String)

/-- `dict[OperatorPartition, list[(snapshot_id, file_path)]]`. -/
abbrev WorkerGroups := List (OperatorPartition × GroupEntry)

/-- `dict[worker_id, dict[OperatorPartition, list[(snapshot_id, file_path)]]]`. -/
abbrev Groups := List (Int × WorkerGroups)

/-- One iteration of the key-classification loop in
`get_uncoordinated_snapshots_per_worker`:

```python
if not sn_file.startswith("uncoordinated/"): continue      -- ok none
parts = sn_file.split("/")
if len(parts) < 5: continue                                -- ok none
worker_id = int(parts[1]); operator_name = parts[2]
partition = int(parts[3]); snapshot_id = int(parts[4].split(".")[0])
```
A `ValueError` from any `int(...)` is an uncaught exception (`error`). -/
def parseCompKey (f : String) : Except Unit (Option (Int × String × Int × Int)) :=
  if ¬ strStarts f "uncoordinated/" then .ok none
  else
    let parts := pySplit '/' f
    if parts.length < 5 then .ok none
    else
      match pyInt (parts.getD 1 ""), pyInt (parts.getD 3 ""),
            pyInt ((pySplit '.' (parts.getD 4 "")).headD "") with
      | some w, some p, some sid => .ok (some (w, parts.getD 2 "", p, sid))
      | _, _, _ => .error ()

/-- `snapshots_per_worker[worker_id][operator_partition].append(e)` on the
nested `defaultdict`. -/
def addToGroups (gs : Groups) (w : Int) (opp : OperatorPartition)
    (e : Int × String) : Groups :=
  assocModify gs w [] (fun wg => assocModify wg opp [] (fun l => l ++ [e]))

/-- The classification loop of `get_uncoordinated_snapshots_per_worker`,
threading the nested dict; only keys with `snapshot_id <= max_snap_id`
are grouped. -/
def buildGroupsAux (max_snap_id : Int) : List String → Groups → Except Unit Groups
  | [], gs => .ok gs
  | f :: fs, gs =>
    match parseCompKey f with
    | .error e => .error e
    | .ok none => buildGroupsAux max_snap_id fs gs
    | .ok (some (w, opn, p, sid)) =>
      buildGroupsAux max_snap_id fs
        (if sid ≤ max_snap_id then addToGroups gs w (opn, p) (sid, f) else gs)

/-- The final per-group `sort(key=lambda x: x[0])` pass. -/
def sortGroups (gs : Groups) : Groups :=
  gs.map (fun we => (we.1, we.2.map (fun oe => (oe.1, sortByFst oe.2))))

/-- `get_uncoordinated_snapshots_per_worker(snapshot_files, max_snap_id)`. -/
def get_uncoordinated_snapshots_per_worker (snapshot_files : List String)
    (max_snap_id : Int) : Except Unit Groups :=
  match buildGroupsAux max_snap_id snapshot_files [] with
  | .error e => .error e
  | .ok gs => .ok (sortGroups gs)

/-- The inner merge loop of `compact_uncoordinated_deltas` for one group:

```python
for sn_id, sn_name in snapshots:
    partition_data = msgpack_deserialization(...get_object(...).data)
    if partition_data:
        data.update(partition_data)
```
reading against the store as it stands mid-run (`st`). -/
def mergeGroup (st : Store) : GroupEntry → KVPairs → Except Unit KVPairs
  | [], data => .ok data
  | (_, sn_name) :: rest, data =>
    match readKV st sn_name with
    | .error e => .error e
    | .ok pd => mergeGroup st rest (if pd.isEmpty then data else assocUpd data pd)

/-- The `for operator_partition, snapshots in worker_snapshots.items()`
loop for one worker: groups of at most one delta are skipped; otherwise
the payloads are merged, every source key is marked for deletion, and a
non-empty merge is written to `.../0.bin`. -/
def compactGroupList (worker_id : Int) :
    WorkerGroups → Store × List String → Except Unit (Store × List String)
  | [], acc => .ok acc
  | (opp, snapshots) :: rest, (st, dels) =>
    if snapshots.length ≤ 1 then compactGroupList worker_id rest (st, dels)
    else
      match mergeGroup st snapshots [] with
      | .error e => .error e
      | .ok data =>
        let dels' := dels ++ snapshots.map Prod.snd
        let st' :=
          if data.isEmpty then st
          else storePut st (get_snapshot_path worker_id opp.1 opp.2 0) (.kv data)
        compactGroupList worker_id rest (st', dels')

/-- The `for worker_id, worker_snapshots in snapshots_per_worker.items()` loop. -/
def compactWorkers :
    Groups → Store × List String → Except Unit (Store × List String)
  | [], acc => .ok acc
  | (w, wgs) :: rest, acc =>
    match compactGroupList w wgs acc with
    | .error e => .error e
    | .ok acc' => compactWorkers rest acc'

/-- `compact_uncoordinated_deltas(minio_client, snapshot_files, max_snap_id)`:
group, merge/write per group, then delete every marked source key
(`cleanup_compacted_files`, which never fails in this model). -/
def compact_uncoordinated_deltas (store : Store) (snapshot_files : List String)
    (max_snap_id : Int) : Except Unit Store :=
  match get_uncoordinated_snapshots_per_worker snapshot_files max_snap_id with
  | .error e => .error e
  | .ok gs =>
    match compactWorkers gs (store, []) with
    | .error e => .error e
    | .ok (st, dels) => .ok (dels.foldl storeRemove st)

/-- `start_uncoordinated_snapshot_compaction(max_snap_id)`: list every
`.bin` object in the bucket and compact. -/
def start_uncoordinated_snapshot_compaction (store : Store) (max_snap_id : Int) :
    Except Unit Store :=
  compact_uncoordinated_deltas store (listBinAll store) max_snap_id

/-- Keys that are not a `.bin` delta with trailing snapshot id above `t`:
the keys `dropHighDeltas` keeps. -/
def keyNotHigh (t : Int) (k : String) : Bool :=
  !(strEnds k ".bin" &&
    (match parseTrailingId k with
     | some i => decide (t < i)
     | none => false))

/-- The store with every delta whose trailing snapshot id exceeds `t`
removed; used to state that recovery ignores such deltas (claim C5). -/
def dropHighDeltas (store : Store) (t : Int) : Store :=
  store.filter (fun e => keyNotHigh t e.1)

/-- Keys whose trailing snapshot id does not exceed `t` (unparseable keys
kept); the key-level filter corresponding to `dropHighDeltas` on listed
(`.bin`) keys. -/
def keepLow (t : Int) (f : String) : Bool :=
  !(match parseTrailingId f with
    | some i => decide (t < i)
    | none => false)

/-- Ascending by first component. -/
abbrev SortedFst {α : Type} (l : List (Int × α)) : Prop :=
  List.Pairwise (fun a b => a.1 ≤ b.1) l

/-- The keys of a store, in entry order. -/
def keysOf (s : Store) : List String := s.map Prod.fst

/-- The entry list recorded in the nested compaction groups for worker
`w` and operator partition `opp` (empty if absent). -/
def groupLookup (gs : Groups) (w : Int) (opp : OperatorPartition) : GroupEntry :=
  (assocGet ((assocGet gs w).getD []) opp).getD []

/-- The contribution of one listed key to the group of `(w, opp)` under
bound `max`: `some (id, key)` when the key classifies to that group with
id at most the bound, else `none`. -/
def keyEntry (max w : Int) (opp : OperatorPartition) (f : String) :
    Option (Int × String) :=
  match parseCompKey f with
  | .ok (some (w', opn, p, i)) =>
    if w' = w ∧ (opn, p) = opp ∧ i ≤ max then some (i, f) else none
  | _ => none

/-- Well-formedness of the nested group dict: worker keys and, per worker,
operator-partition keys are unduplicated (as any Python dict's keys are). -/
def GroupsWF (gs : Groups) : Prop :=
  (gs.map Prod.fst).Nodup ∧ ∀ we ∈ gs, (we.2.map Prod.fst).Nodup

/-- The file names one worker's compaction pass marks for deletion: all
files of its groups with more than one delta, in group order. -/
def delsOf (wgs : WorkerGroups) : List String :=
  wgs.foldr (fun oe acc => if oe.2.length ≤ 1 then acc else oe.2.map Prod.snd ++ acc) []

/-- All file names the compaction run marks for deletion. -/
def delsOfAll (gs : Groups) : List String :=
  gs.foldr (fun we acc => delsOf we.2 ++ acc) []

/-! ## Lemmas: association lists -/

theorem assocGet_assocSet_self {κ β : Type} [DecidableEq κ]
    (d : List (κ × β)) (k : κ) (v : β) : assocGet (assocSet d k v) k = some v := by
  induction d with
  | nil => simp [assocSet, assocGet]
  | cons e rest ih =>
    by_cases h : k = e.1
    · simp [assocSet, h, assocGet]
    · simp [assocSet, h, assocGet, ih]

theorem assocGet_assocSet_ne {κ β : Type} [DecidableEq κ]
    (d : List (κ × β)) (k j : κ) (v : β) (hne : j ≠ k) :
    assocGet (assocSet d k v) j = assocGet d j := by
  induction d with
  | nil => simp [assocSet, assocGet, hne]
  | cons e rest ih =>
    by_cases h : k = e.1
    · subst h
      simp [assocSet, assocGet, hne]
    · simp [assocSet, h]
      by_cases h2 : j = e.1
      · simp [assocGet, h2]
      · simp [assocGet, h2, ih]

theorem assocGet_assocModify_self {κ β : Type} [DecidableEq κ]
    (d : List (κ × β)) (k : κ) (dflt : β) (f : β → β) :
    assocGet (assocModify d k dflt f) k = some (f ((assocGet d k).getD dflt)) := by
  induction d with
  | nil => simp [assocModify, assocGet]
  | cons e rest ih =>
    by_cases h : k = e.1
    · simp [assocModify, h, assocGet]
    · simp [assocModify, h, assocGet, ih]

theorem assocGet_assocModify_ne {κ β : Type} [DecidableEq κ]
    (d : List (κ × β)) (k j : κ) (dflt : β) (f : β → β) (hne : j ≠ k) :
    assocGet (assocModify d k dflt f) j = assocGet d j := by
  induction d with
  | nil => simp [assocModify, assocGet, hne]
  | cons e rest ih =>
    by_cases h : k = e.1
    · subst h
      simp [assocModify, assocGet, hne]
    · simp [assocModify, h]
      by_cases h2 : j = e.1
      · simp [assocGet, h2]
      · simp [assocGet, h2, ih]

theorem storeGet_storePut_self (s : Store) (k : String) (v : Payload) :
    storeGet (storePut s k v) k = some v := assocGet_assocSet_self s k v

theorem storeGet_storePut_ne (s : Store) (k j : String) (v : Payload) (hne : j ≠ k) :
    storeGet (storePut s k v) j = storeGet s j := assocGet_assocSet_ne s k j v hne

theorem storeGet_storeRemove (s : Store) (k j : String) :
    storeGet (storeRemove s k) j = if j = k then none else storeGet s j := by
  induction s with
  | nil => simp [storeRemove, storeGet, assocGet]
  | cons e rest ih =>
    by_cases h : e.1 = k
    · simp only [storeRemove, List.filter] at ih ⊢
      by_cases hj : j = k
      · simp [h, hj, ih, storeGet] at ih ⊢
        exact ih
      · simp only [h, beq_self_eq_true, Bool.not_true] at ih ⊢
        simpa [storeGet, assocGet, h, hj, fun hh : j = e.1 => hj (hh.trans h)] using ih
    · have hb : (e.1 == k) = false := beq_eq_false_iff_ne.mpr h
      simp only [storeRemove, List.filter, hb, Bool.not_false] at ih ⊢
      by_cases h2 : j = e.1
      · simp [storeGet, assocGet, h2, fun hh : e.1 = k => h hh]
      · simp only [storeGet, assocGet, h2, if_neg h2] at ih ⊢
        exact ih

/-! ## Lemmas: sorting by snapshot id -/

theorem sortedFst_nil {α : Type} : SortedFst ([] : List (Int × α)) := List.Pairwise.nil

theorem mem_insertByFst {α : Type} (x y : Int × α) (l : List (Int × α)) :
    y ∈ insertByFst x l ↔ y = x ∨ y ∈ l := by
  induction l with
  | nil => simp [insertByFst]
  | cons z zs ih =>
    by_cases h : x.1 < z.1
    · simp [insertByFst, h]
    · simp [insertByFst, h, ih]
      tauto

theorem sortedFst_insertByFst {α : Type} (x : Int × α) (l : List (Int × α))
    (hl : SortedFst l) : SortedFst (insertByFst x l) := by
  induction l with
  | nil => simp [insertByFst]
  | cons z zs ih =>
    rcases hl with _ | ⟨hz, hzs⟩
    by_cases h : x.1 < z.1
    · simp only [insertByFst, if_pos h]
      refine List.Pairwise.cons ?_ (List.Pairwise.cons hz hzs)
      intro y hy
      rcases List.mem_cons.mp hy with rfl | hy
      · exact le_of_lt h
      · exact le_trans (le_of_lt h) (hz y hy)
    · simp only [insertByFst, if_neg h]
      refine List.Pairwise.cons ?_ (ih hzs)
      intro y hy
      rcases (mem_insertByFst x y zs).mp hy with rfl | hy
      · exact le_of_not_lt h
      · exact hz y hy

theorem sortedFst_foldl_insert {α : Type} (l acc : List (Int × α))
    (hacc : SortedFst acc) :
    SortedFst (l.foldl (fun a x => insertByFst x a) acc) := by
  induction l generalizing acc with
  | nil => exact hacc
  | cons x xs ih => exact ih _ (sortedFst_insertByFst x acc hacc)

theorem sortedFst_sortByFst {α : Type} (l : List (Int × α)) :
    SortedFst (sortByFst l) := sortedFst_foldl_insert l [] sortedFst_nil

theorem mem_foldl_insert {α : Type} (l acc : List (Int × α)) (y : Int × α) :
    y ∈ l.foldl (fun a x => insertByFst x a) acc ↔ y ∈ acc ∨ y ∈ l := by
  induction l generalizing acc with
  | nil => simp
  | cons x xs ih =>
    simp only [List.foldl_cons, ih, mem_insertByFst, List.mem_cons]
    tauto

theorem mem_sortByFst {α : Type} (l : List (Int × α)) (y : Int × α) :
    y ∈ sortByFst l ↔ y ∈ l := by
  simp [sortByFst, mem_foldl_insert]

theorem length_insertByFst {α : Type} (x : Int × α) (l : List (Int × α)) :
    (insertByFst x l).length = l.length + 1 := by
  induction l with
  | nil => simp [insertByFst]
  | cons z zs ih =>
    by_cases h : x.1 < z.1
    · simp [insertByFst, h]
    · simp [insertByFst, h, ih]

theorem length_sortByFst {α : Type} (l : List (Int × α)) :
    (sortByFst l).length = l.length := by
  suffices h : ∀ acc : List (Int × α),
      (l.foldl (fun a x => insertByFst x a) acc).length = acc.length + l.length by
    simpa using h []
  induction l with
  | nil => intro acc; simp
  | cons x xs ih =>
    intro acc
    simp [ih, length_insertByFst]
    omega

theorem insertByFst_eq_cons {α : Type} (x : Int × α) (m : List (Int × α))
    (hm : ∀ y ∈ m, x.1 < y.1) : insertByFst x m = x :: m := by
  cases m with
  | nil => rfl
  | cons z zs => simp [insertByFst, hm z (List.mem_cons_self z zs)]

theorem filter_insertByFst {α : Type} (p : Int × α → Bool) (x : Int × α)
    (l : List (Int × α)) (hl : SortedFst l) :
    (insertByFst x l).filter p =
      if p x then insertByFst x (l.filter p) else l.filter p := by
  induction l with
  | nil =>
    by_cases hx : p x <;> simp [insertByFst, List.filter, hx]
  | cons z zs ih =>
    rcases hl with _ | ⟨hz, hzs⟩
    by_cases h : x.1 < z.1
    · simp only [insertByFst, if_pos h]
      by_cases hx : p x
      · have hcons : insertByFst x ((z :: zs).filter p) = x :: (z :: zs).filter p := by
          refine insertByFst_eq_cons x _ ?_
          intro y hy
          have hy' := List.mem_of_mem_filter hy
          rcases List.mem_cons.mp hy' with rfl | hy'
          · exact h
          · exact lt_of_lt_of_le h (hz y hy')
        rw [List.filter_cons_of_pos hx, if_pos hx, hcons]
      · rw [List.filter_cons_of_neg (by simpa using hx), if_neg hx]
    · simp only [insertByFst, if_neg h]
      by_cases hpz : p z
      · rw [List.filter_cons_of_pos hpz, List.filter_cons_of_pos hpz, ih hzs]
        by_cases hx : p x
        · rw [if_pos hx, if_pos hx]
          simp [insertByFst, h]
        · rw [if_neg hx, if_neg hx]
      · rw [List.filter_cons_of_neg (by simpa using hpz),
            List.filter_cons_of_neg (by simpa using hpz), ih hzs]

theorem filter_foldl_insert {α : Type} (p : Int × α → Bool) (l acc : List (Int × α))
    (hacc : SortedFst acc) :
    (l.foldl (fun a x => insertByFst x a) acc).filter p =
      (l.filter p).foldl (fun a x => insertByFst x a) (acc.filter p) := by
  induction l generalizing acc with
  | nil => simp
  | cons x xs ih =>
    simp only [List.foldl_cons]
    rw [ih _ (sortedFst_insertByFst x acc hacc),
        filter_insertByFst p x acc hacc]
    by_cases hx : p x
    · simp [hx]
    · simp [hx]

theorem filter_sortByFst {α : Type} (p : Int × α → Bool) (l : List (Int × α)) :
    (sortByFst l).filter p = sortByFst (l.filter p) := by
  simpa using filter_foldl_insert p l [] sortedFst_nil

/-! ## Lemmas: the parsed merge-order list -/

theorem buildMergeOrderList_ok_of_all_some (files : List String)
    (h : ∀ f ∈ files, (parseTrailingId f).isSome) :
    buildMergeOrderList files =
      .ok (files.map fun f => ((parseTrailingId f).getD 0, f)) := by
  induction files with
  | nil => rfl
  | cons f fs ih =>
    have hf := h f (List.mem_cons_self f fs)
    obtain ⟨i, hi⟩ := Option.isSome_iff_exists.mp hf
    rw [buildMergeOrderList, hi, ih (fun g hg => h g (List.mem_cons_of_mem f hg))]
    simp [hi]

theorem buildMergeOrderList_error_of_some_none (files : List String)
    (h : ∃ f ∈ files, parseTrailingId f = none) :
    buildMergeOrderList files = .error () := by
  induction files with
  | nil => simp at h
  | cons f fs ih =>
    rcases h with ⟨g, hg, hnone⟩
    rcases List.mem_cons.mp hg with rfl | hg
    · rw [buildMergeOrderList, hnone]
    · rw [buildMergeOrderList]
      cases hp : parseTrailingId f with
      | none => rfl
      | some i => rw [ih ⟨g, hg, hnone⟩]

theorem buildMergeOrderList_mem_parse (files : List String)
    (l : List (Int × String)) (h : buildMergeOrderList files = .ok l) :
    (∀ e ∈ l, parseTrailingId e.2 = some e.1) ∧ ∀ f ∈ files, (parseTrailingId f).isSome := by
  by_cases hall : ∀ f ∈ files, (parseTrailingId f).isSome
  · rw [buildMergeOrderList_ok_of_all_some files hall] at h
    refine ⟨?_, hall⟩
    intro e he
    cases h
    simp only [List.mem_map] at he
    obtain ⟨f, hf, rfl⟩ := he
    obtain ⟨i, hi⟩ := Option.isSome_iff_exists.mp (hall f hf)
    simp [hi]
  · push_neg at hall
    obtain ⟨f, hf, hnone⟩ := hall
    rw [buildMergeOrderList_error_of_some_none files
      ⟨f, hf, Option.not_isSome_iff_eq_none.mp hnone⟩] at h
    cases h

theorem buildMergeOrderList_filter (files : List String) (q : String → Bool)
    (h : ∀ f ∈ files, q f = false → (parseTrailingId f).isSome) :
    buildMergeOrderList (files.filter q) =
      match buildMergeOrderList files with
      | .ok l => .ok (l.filter fun e => q e.2)
      | .error e => .error e := by
  by_cases hall : ∀ f ∈ files, (parseTrailingId f).isSome
  · rw [buildMergeOrderList_ok_of_all_some files hall,
        buildMergeOrderList_ok_of_all_some (files.filter q)
          (fun f hf => hall f (List.mem_of_mem_filter hf))]
    simp [List.filter_map, Function.comp_def]
  · push_neg at hall
    obtain ⟨f, hf, hnone⟩ := hall
    have hnone' : parseTrailingId f = none := Option.not_isSome_iff_eq_none.mp hnone
    have hqf : q f = true := by
      by_contra hq
      exact hnone (h f hf (Bool.not_eq_true _ ▸ Bool.of_not_eq_true hq))
    rw [buildMergeOrderList_error_of_some_none files ⟨f, hf, hnone'⟩,
        buildMergeOrderList_error_of_some_none (files.filter q)
          ⟨f, List.mem_filter.mpr ⟨hf, hqf⟩, hnone'⟩]

/-! ## Lemmas: recovery ignores deltas above the target (claim C5) -/

theorem assocGet_filter_key {β : Type} (s : List (String × β)) (p : String → Bool)
    (k : String) (hk : p k = true) :
    assocGet (s.filter fun e => p e.1) k = assocGet s k := by
  induction s with
  | nil => rfl
  | cons e rest ih =>
    cases hp : p e.1
    · by_cases hke : k = e.1
      · exact absurd (hke ▸ hk) (by simp [hp])
      · simp [List.filter_cons, hp, assocGet, hke, ih]
    · by_cases hke : k = e.1
      · simp [List.filter_cons, hp, assocGet, hke]
      · simp [List.filter_cons, hp, assocGet, hke, ih]

theorem map_fst_filter_key {β : Type} (s : List (String × β)) (p : String → Bool) :
    (s.filter fun e => p e.1).map Prod.fst = (s.map Prod.fst).filter p := by
  induction s with
  | nil => rfl
  | cons e rest ih =>
    cases hp : p e.1 <;> simp [List.filter_cons, hp, ih]

theorem keyNotHigh_of_keepLow {t : Int} {f : String} (hf : keepLow t f = true) :
    keyNotHigh t f = true := by
  unfold keyNotHigh
  unfold keepLow at hf
  cases hbin : strEnds f ".bin"
  · simp [hbin]
  · simpa [hbin] using hf

theorem listBin_dropHigh (store : Store) (t : Int) (pre : String) :
    listBin (dropHighDeltas store t) pre = (listBin store pre).filter (keepLow t) := by
  unfold listBin dropHighDeltas
  rw [map_fst_filter_key, List.filter_filter, List.filter_filter]
  refine List.filter_congr ?_
  intro k _
  cases hbin : strEnds k ".bin" <;> cases hpre : strStarts k pre <;>
    simp [keepLow, keyNotHigh, hbin, hpre]

theorem readKV_dropHigh (store : Store) (t : Int) (f : String)
    (hf : keepLow t f = true) :
    readKV (dropHighDeltas store t) f = readKV store f := by
  unfold readKV storeGet dropHighDeltas
  rw [assocGet_filter_key _ _ _ (keyNotHigh_of_keepLow hf)]

theorem readSeq_dropHigh (store : Store) (t : Int) (f : String)
    (hf : keepLow t f = true) :
    readSeq (dropHighDeltas store t) f = readSeq store f := by
  unfold readSeq storeGet dropHighDeltas
  rw [assocGet_filter_key _ _ _ (keyNotHigh_of_keepLow hf)]

theorem snapshot_merge_order_dropHigh (store : Store) (t : Int) (pre : String) :
    snapshot_merge_order (dropHighDeltas store t) pre =
      match snapshot_merge_order store pre with
      | .ok l => .ok (l.filter fun e => decide (e.1 ≤ t))
      | .error e => .error e := by
  unfold snapshot_merge_order
  rw [listBin_dropHigh,
      buildMergeOrderList_filter _ _ (by
        intro f _ hq
        by_contra hs
        have : parseTrailingId f = none := Option.not_isSome_iff_eq_none.mp hs
        simp [keepLow, this] at hq)]
  cases hb : buildMergeOrderList (listBin store pre) with
  | error e => rfl
  | ok l =>
    have hmem := (buildMergeOrderList_mem_parse _ _ hb).1
    simp only
    rw [filter_sortByFst]
    have hfeq : List.filter (fun e => keepLow t e.2) l
        = List.filter (fun e => decide (e.1 ≤ t)) l := by
      refine List.filter_congr ?_
      intro e he
      simp only [keepLow, hmem e he]
      rw [← decide_not, decide_eq_decide]
      exact Int.not_lt
    rw [hfeq]

theorem mergeStateDeltas_dropHigh (store : Store) (t : Int) (op : OperatorPartition)
    (order : List (Int × String)) (data : List (OperatorPartition × KVPairs))
    (hread : ∀ e ∈ order, e.1 ≤ t →
      readKV (dropHighDeltas store t) e.2 = readKV store e.2) :
    mergeStateDeltas (dropHighDeltas store t) t op
        (order.filter fun e => decide (e.1 ≤ t)) data =
      mergeStateDeltas store t op order data := by
  induction order generalizing data with
  | nil => rfl
  | cons e rest ih =>
    have hread' : ∀ e' ∈ rest, e'.1 ≤ t →
        readKV (dropHighDeltas store t) e'.2 = readKV store e'.2 :=
      fun e' he' => hread e' (List.mem_cons_of_mem e he')
    by_cases hle : e.1 ≤ t
    · rw [List.filter_cons_of_pos (by simpa using hle)]
      obtain ⟨i, f⟩ := e
      simp only at hle
      rw [mergeStateDeltas, mergeStateDeltas, if_neg (by omega), if_neg (by omega),
          hread ⟨i, f⟩ (List.mem_cons_self _ _) hle]
      cases readKV store f with
      | error e => rfl
      | ok pd => exact ih _ hread'
    · rw [List.filter_cons_of_neg (by simpa using hle)]
      obtain ⟨i, f⟩ := e
      simp only at hle
      rw [mergeStateDeltas, if_pos (by omega)]
      exact ih _ hread'

theorem seqFold_dropHigh (store : Store) (t : Int)
    (order : List (Int × String)) (acc : SeqRecord)
    (hread : ∀ e ∈ order, e.1 ≤ t →
      readSeq (dropHighDeltas store t) e.2 = readSeq store e.2) :
    seqFold (dropHighDeltas store t) t (order.filter fun e => decide (e.1 ≤ t)) acc =
      seqFold store t order acc := by
  induction order generalizing acc with
  | nil => rfl
  | cons e rest ih =>
    have hread' : ∀ e' ∈ rest, e'.1 ≤ t →
        readSeq (dropHighDeltas store t) e'.2 = readSeq store e'.2 :=
      fun e' he' => hread e' (List.mem_cons_of_mem e he')
    by_cases hle : e.1 ≤ t
    · rw [List.filter_cons_of_pos (by simpa using hle)]
      obtain ⟨i, f⟩ := e
      simp only at hle
      rw [seqFold, seqFold, if_neg (by omega), if_neg (by omega),
          hread ⟨i, f⟩ (List.mem_cons_self _ _) hle]
      cases readSeq store f with
      | error e => rfl
      | ok r => exact ih _ hread'
    · rw [List.filter_cons_of_neg (by simpa using hle)]
      obtain ⟨i, f⟩ := e
      simp only at hle
      rw [seqFold, if_pos (by omega)]
      exact ih _ hread'

theorem snapshot_merge_order_parse (store : Store) (pre : String)
    (order : List (Int × String)) (h : snapshot_merge_order store pre = .ok order) :
    ∀ e ∈ order, parseTrailingId e.2 = some e.1 := by
  unfold snapshot_merge_order at h
  cases hb : buildMergeOrderList (listBin store pre) with
  | error e => rw [hb] at h; cases h
  | ok l =>
    rw [hb] at h
    cases h
    intro e he
    exact (buildMergeOrderList_mem_parse _ _ hb).1 e ((mem_sortByFst l e).mp he)

theorem keepLow_of_parse_le {t : Int} {e : Int × String}
    (hp : parseTrailingId e.2 = some e.1) (hle : e.1 ≤ t) :
    keepLow t e.2 = true := by
  simp [keepLow, hp]
  omega

theorem recoverPartitions_dropHigh (store : Store) (t w : Int)
    (regs : List OperatorPartition) (data : List (OperatorPartition × KVPairs)) :
    recoverPartitions (dropHighDeltas store t) w t regs data =
      recoverPartitions store w t regs data := by
  induction regs generalizing data with
  | nil => rfl
  | cons op rest ih =>
    rw [recoverPartitions, recoverPartitions, snapshot_merge_order_dropHigh]
    cases ho : snapshot_merge_order store (partitionDir w op) with
    | error e => rfl
    | ok order =>
      simp only
      rw [mergeStateDeltas_dropHigh store t op order data
        (fun e he hle => readKV_dropHigh store t e.2
          (keepLow_of_parse_le (snapshot_merge_order_parse store _ order ho e he) hle))]
      cases mergeStateDeltas store t op order data with
      | error e => rfl
      | ok data' => exact ih data'

theorem sequencer_merge_order_eq (store : Store) (w : Int) :
    sequencer_merge_order store w =
      snapshot_merge_order store ("uncoordinated/" ++ intStr w ++ "/sequencer/") := rfl

/-- Claim C5: recovery at target `t` is unaffected by removing every delta
whose snapshot id exceeds `t` — such deltas are never incorporated. -/
theorem retrieve_snapshot_ignores_high (self : UncoordinatedSnapshotsMinio)
    (store : Store) (t : Int) (regs : List OperatorPartition) :
    retrieve_snapshot self (dropHighDeltas store t) t regs =
      retrieve_snapshot self store t regs := by
  unfold retrieve_snapshot
  by_cases ht : t = -1
  · simp [ht]
  · simp only [if_neg ht]
    rw [recoverPartitions_dropHigh]
    cases recoverPartitions store self.worker_id t regs [] with
    | error e => rfl
    | ok data =>
      simp only
      rw [sequencer_merge_order_eq, sequencer_merge_order_eq, snapshot_merge_order_dropHigh]
      cases ho : snapshot_merge_order store ("uncoordinated/" ++ intStr self.worker_id ++ "/sequencer/") with
      | error e => rfl
      | ok so =>
        simp only
        rw [seqFold_dropHigh store t so ⟨[], [], 0, 0⟩
          (fun e he hle => readSeq_dropHigh store t e.2
            (keepLow_of_parse_le (snapshot_merge_order_parse store _ so ho e he) hle))]

/-! ## Lemmas: sequencer recovery is a full replacement (claim C3) -/

theorem snapshot_merge_order_sorted (store : Store) (pre : String)
    (order : List (Int × String)) (h : snapshot_merge_order store pre = .ok order) :
    SortedFst order := by
  unfold snapshot_merge_order at h
  cases hb : buildMergeOrderList (listBin store pre) with
  | error e => rw [hb] at h; cases h
  | ok l =>
    rw [hb] at h
    cases h
    exact sortedFst_sortByFst l

theorem seqFold_sorted_last (store : Store) (t : Int) :
    ∀ (entries : List (Int × String)) (acc s : SeqRecord),
      SortedFst entries → seqFold store t entries acc = .ok s →
      ((∀ e ∈ entries, t < e.1) ∧ s = acc) ∨
      (∃ e ∈ entries, e.1 ≤ t ∧ (∀ e' ∈ entries, e'.1 ≤ t → e'.1 ≤ e.1) ∧
        readSeq store e.2 = .ok s) := by
  intro entries
  induction entries with
  | nil =>
    intro acc s _ h
    cases h
    exact Or.inl ⟨by simp, rfl⟩
  | cons e rest ih =>
    intro acc s hs h
    rcases hs with _ | ⟨hz, hrest⟩
    obtain ⟨i, f⟩ := e
    by_cases hi : t < i
    · rw [seqFold, if_pos hi] at h
      rcases ih acc s hrest h with ⟨hall, rfl⟩ | ⟨e, he, hle, hmax, hread⟩
      · exact Or.inl ⟨by
          intro e he
          rcases List.mem_cons.mp he with rfl | he
          · exact hi
          · exact hall e he, rfl⟩
      · refine Or.inr ⟨e, List.mem_cons_of_mem _ he, hle, ?_, hread⟩
        intro e' he' hle'
        rcases List.mem_cons.mp he' with rfl | he'
        · simp only at hle'
          omega
        · exact hmax e' he' hle'
    · rw [seqFold, if_neg hi] at h
      cases hr : readSeq store f with
      | error err => rw [hr] at h; cases h
      | ok r =>
        rw [hr] at h
        simp only at h
        rcases ih r s hrest h with ⟨hall, rfl⟩ | ⟨e, he, hle, hmax, hread⟩
        · refine Or.inr ⟨⟨i, f⟩, List.mem_cons_self _ _, by omega, ?_, hr⟩
          intro e' he' hle'
          rcases List.mem_cons.mp he' with rfl | he'
          · exact le_refl _
          · exact absurd hle' (by have := hall e' he'; omega)
        · refine Or.inr ⟨e, List.mem_cons_of_mem _ he, hle, ?_, hread⟩
          intro e' he' hle'
          rcases List.mem_cons.mp he' with rfl | he'
          · exact le_trans (hz e he) (le_refl _)
          · exact hmax e' he' hle'

/-! ## Lemmas: a partition with no qualifying delta stays absent (claim C8) -/

theorem mergeStateDeltas_all_skip (store : Store) (t : Int) (op : OperatorPartition)
    (order : List (Int × String)) (data : List (OperatorPartition × KVPairs))
    (h : ∀ e ∈ order, t < e.1) :
    mergeStateDeltas store t op order data = .ok data := by
  induction order with
  | nil => rfl
  | cons e rest ih =>
    obtain ⟨i, f⟩ := e
    rw [mergeStateDeltas, if_pos (h ⟨i, f⟩ (List.mem_cons_self _ _))]
    exact ih (fun e' he' => h e' (List.mem_cons_of_mem _ he'))

theorem mergeStateDeltas_get_other (store : Store) (t : Int) (op : OperatorPartition)
    (order : List (Int × String)) :
    ∀ (data data' : List (OperatorPartition × KVPairs)),
      mergeStateDeltas store t op order data = .ok data' →
      ∀ j, j ≠ op → assocGet data' j = assocGet data j := by
  induction order with
  | nil =>
    intro data data' h j hj
    cases h
    rfl
  | cons e rest ih =>
    intro data data' h j hj
    obtain ⟨i, f⟩ := e
    by_cases hi : t < i
    · rw [mergeStateDeltas, if_pos hi] at h
      exact ih data data' h j hj
    · rw [mergeStateDeltas, if_neg hi] at h
      cases hr : readKV store f with
      | error err => rw [hr] at h; cases h
      | ok pd =>
        rw [hr] at h
        simp only at h
        cases hg : assocGet data op with
        | none =>
          rw [hg] at h
          rw [ih _ _ h j hj, assocGet_assocSet_ne _ _ _ _ hj]
        | some cur =>
          rw [hg] at h
          by_cases hpd : pd.isEmpty <;>
            simp only [hpd, if_pos, if_neg, Bool.false_eq_true, ite_true, ite_false] at h <;>
            rw [ih _ _ h j hj, assocGet_assocSet_ne _ _ _ _ hj]

theorem recoverPartitions_get_none (store : Store) (w t : Int)
    (op : OperatorPartition)
    (horder : ∀ l, snapshot_merge_order store (partitionDir w op) = .ok l →
      ∀ e ∈ l, t < e.1) :
    ∀ (regs : List OperatorPartition) (data data' : List (OperatorPartition × KVPairs)),
      recoverPartitions store w t regs data = .ok data' →
      assocGet data' op = assocGet data op := by
  intro regs
  induction regs with
  | nil =>
    intro data data' h
    cases h
    rfl
  | cons op' rest ih =>
    intro data data' h
    rw [recoverPartitions] at h
    cases ho : snapshot_merge_order store (partitionDir w op') with
    | error e => rw [ho] at h; cases h
    | ok order =>
      rw [ho] at h
      simp only at h
      by_cases hop : op' = op
      · subst hop
        rw [mergeStateDeltas_all_skip store t op' order data (horder order ho)] at h
        simp only at h
        exact ih data data' h
      · cases hm : mergeStateDeltas store t op' order data with
        | error e => rw [hm] at h; cases h
        | ok data1 =>
          rw [hm] at h
          simp only at h
          rw [ih data1 data' h,
              mergeStateDeltas_get_other store t op' order data data1 hm op
                (fun hh => hop hh.symm)]

/-! ## Lemmas: guard-skipped keys do not affect grouping (claim C7) -/

theorem parseCompKey_skip (f : String)
    (h : strStarts f "uncoordinated/" = false ∨ (pySplit '/' f).length < 5) :
    parseCompKey f = .ok none := by
  rcases h with h | h
  · unfold parseCompKey
    rw [if_pos (by simp [h])]
  · unfold parseCompKey
    by_cases hs : strStarts f "uncoordinated/"
    · rw [if_neg (by simp [hs])]
      simp only [if_pos h]
    · rw [if_pos (by simpa using hs)]

theorem buildGroupsAux_skip_mid (max : Int) (f : String)
    (hf : parseCompKey f = .ok none) :
    ∀ (files1 files2 : List String) (gs : Groups),
      buildGroupsAux max (files1 ++ f :: files2) gs =
        buildGroupsAux max (files1 ++ files2) gs := by
  intro files1
  induction files1 with
  | nil =>
    intro files2 gs
    simp only [List.nil_append]
    rw [buildGroupsAux, hf]
  | cons g rest ih =>
    intro files2 gs
    simp only [List.cons_append]
    rw [buildGroupsAux, buildGroupsAux]
    cases parseCompKey g with
    | error e => rfl
    | ok w =>
      cases w with
      | none => exact ih files2 gs
      | some v => exact ih files2 _

/-! ## Lemmas: decimal rendering and parsing round-trip -/

theorem char_digit_isDigit {d : Nat} (hd : d < 10) :
    (Char.ofNat (48 + d)).isDigit = true := by
  interval_cases d <;> decide

theorem char_digit_toNat {d : Nat} (hd : d < 10) :
    (Char.ofNat (48 + d)).toNat = 48 + d := by
  interval_cases d <;> decide

theorem char_digit_ne_slash {d : Nat} (hd : d < 10) :
    Char.ofNat (48 + d) ≠ '/' := by
  interval_cases d <;> decide

theorem char_digit_ne_dot {d : Nat} (hd : d < 10) :
    Char.ofNat (48 + d) ≠ '.' := by
  interval_cases d <;> decide

theorem digitsValAux_append (l1 l2 : List Char) :
    ∀ a, digitsValAux a (l1 ++ l2) =
      match digitsValAux a l1 with
      | some b => digitsValAux b l2
      | none => none := by
  induction l1 with
  | nil => intro a; rfl
  | cons c cs ih =>
    intro a
    by_cases hc : c.isDigit
    · simp only [List.cons_append, digitsValAux, if_pos hc]
      exact ih _
    · simp only [List.cons_append, digitsValAux, if_neg hc]

theorem natStrAux_mem_digit :
    ∀ (fuel n : Nat), ∀ c ∈ natStrAux fuel n, c.isDigit = true := by
  intro fuel
  induction fuel with
  | zero => intro n c hc; cases hc
  | succ fuel ih =>
    intro n c hc
    rw [natStrAux] at hc
    by_cases hn : n < 10
    · rw [if_pos hn] at hc
      rcases List.mem_singleton.mp hc with rfl
      exact char_digit_isDigit hn
    · rw [if_neg hn] at hc
      rcases List.mem_append.mp hc with hc | hc
      · exact ih (n / 10) c hc
      · rcases List.mem_singleton.mp hc with rfl
        exact char_digit_isDigit (Nat.mod_lt n (by omega))

theorem natStrAux_ne_nil (fuel n : Nat) (h : 0 < fuel) : natStrAux fuel n ≠ [] := by
  cases fuel with
  | zero => omega
  | succ fuel =>
    rw [natStrAux]
    by_cases hn : n < 10
    · simp [hn]
    · simp [hn]

theorem natStrAux_val : ∀ (fuel n : Nat), n < fuel →
    digitsValAux 0 (natStrAux fuel n) = some n := by
  intro fuel
  induction fuel with
  | zero => intro n h; omega
  | succ fuel ih =>
    intro n h
    rw [natStrAux]
    by_cases hn : n < 10
    · rw [if_pos hn, digitsValAux, if_pos (char_digit_isDigit hn), char_digit_toNat hn]
      simp [digitsValAux]
    · rw [if_neg hn]
      have hdiv : n / 10 < fuel := by
        have h1 : n / 10 < n := Nat.div_lt_self (by omega) (by omega)
        omega
      rw [digitsValAux_append, ih (n / 10) hdiv]
      have hmod : n % 10 < 10 := Nat.mod_lt n (by omega)
      simp only [digitsValAux, if_pos (char_digit_isDigit hmod), char_digit_toNat hmod]
      congr 1
      omega

theorem natStr_val (n : Nat) : digitsValAux 0 (natStr n) = some n :=
  natStrAux_val (n + 1) n (by omega)

theorem natStr_ne_nil (n : Nat) : natStr n ≠ [] := natStrAux_ne_nil (n + 1) n (by omega)

theorem natStr_mem_digit (n : Nat) : ∀ c ∈ natStr n, c.isDigit = true :=
  natStrAux_mem_digit (n + 1) n

theorem pyInt_intStr (i : Int) : pyInt (intStr i) = some i := by
  cases i with
  | ofNat n =>
    show pyInt ⟨natStr n⟩ = some (Int.ofNat n)
    unfold pyInt
    cases hns : natStr n with
    | nil => exact absurd hns (natStr_ne_nil n)
    | cons c cs =>
      have hc : c.isDigit = true := by
        refine natStr_mem_digit n c ?_
        rw [hns]
        exact List.mem_cons_self _ _
      have hcne : ¬ c = '-' := by
        intro h
        rw [h] at hc
        cases hc
      simp only [hcne, if_neg, ite_false]
      rw [← hns, natStr_val n]
      rfl
  | negSucc n =>
    show pyInt ⟨'-' :: natStr (n + 1)⟩ = some (Int.negSucc n)
    unfold pyInt
    simp only [ite_true, if_pos rfl]
    have hne : (natStr (n + 1)).isEmpty = false := by
      cases hns : natStr (n + 1) with
      | nil => exact absurd hns (natStr_ne_nil (n + 1))
      | cons c cs => rfl
    rw [hne]
    simp only [Bool.false_eq_true, ite_false, if_neg]
    rw [natStr_val (n + 1)]
    simp [Int.negSucc_eq]

theorem slash_not_mem_intStr (i : Int) : '/' ∉ (intStr i).data := by
  cases i with
  | ofNat n =>
    intro h
    have := natStr_mem_digit n '/' h
    cases this
  | negSucc n =>
    intro h
    rcases List.mem_cons.mp h with h | h
    · cases h
    · have := natStr_mem_digit (n + 1) '/' h
      cases this

theorem dot_not_mem_intStr (i : Int) : '.' ∉ (intStr i).data := by
  cases i with
  | ofNat n =>
    intro h
    have := natStr_mem_digit n '.' h
    cases this
  | negSucc n =>
    intro h
    rcases List.mem_cons.mp h with h | h
    · cases h
    · have := natStr_mem_digit (n + 1) '.' h
      cases this

/-! ## Lemmas: splitting -/

theorem splitChar_ne_nil (sep : Char) (l : List Char) : splitChar sep l ≠ [] := by
  cases l with
  | nil => simp [splitChar]
  | cons c cs =>
    rw [splitChar]
    cases splitChar sep cs with
    | nil => simp
    | cons p ps =>
      by_cases hc : c = sep <;> simp [hc]

theorem splitChar_no_sep (sep : Char) (l : List Char) (h : sep ∉ l) :
    splitChar sep l = [l] := by
  induction l with
  | nil => rfl
  | cons c cs ih =>
    have hc : ¬ c = sep := fun hh => h (hh ▸ List.mem_cons_self c cs)
    rw [splitChar, ih (fun hh => h (List.mem_cons_of_mem c hh))]
    simp [hc]

theorem splitChar_sep_cons (sep : Char) (l : List Char) :
    splitChar sep (sep :: l) = [] :: splitChar sep l := by
  rw [splitChar]
  cases hsc : splitChar sep l with
  | nil => exact absurd hsc (splitChar_ne_nil sep l)
  | cons p ps => simp

theorem splitChar_append_sep (sep : Char) (a l : List Char) (h : sep ∉ a) :
    splitChar sep (a ++ sep :: l) = a :: splitChar sep l := by
  induction a with
  | nil => simpa using splitChar_sep_cons sep l
  | cons c a' ih =>
    have hc : ¬ c = sep := fun hh => h (hh ▸ List.mem_cons_self c a')
    have ih' := ih (fun hh => h (List.mem_cons_of_mem c hh))
    rw [List.cons_append, splitChar, ih']
    simp [hc]

theorem length_splitChar (sep : Char) (l : List Char) :
    (splitChar sep l).length = l.count sep + 1 := by
  induction l with
  | nil => rfl
  | cons c cs ih =>
    rw [splitChar]
    cases hsc : splitChar sep cs with
    | nil => exact absurd hsc (splitChar_ne_nil sep cs)
    | cons p ps =>
      rw [hsc] at ih
      by_cases hc : c = sep
      · subst hc
        simp only [ite_true, if_pos rfl, List.length_cons]
        simp [List.count_cons] at ih ⊢
        omega
      · simp only [hc, ite_false, if_neg, List.length_cons]
        simp [List.count_cons, hc] at ih ⊢
        omega

theorem mem_splitChar_no_sep (sep : Char) :
    ∀ (l : List Char) (p : List Char), p ∈ splitChar sep l → sep ∉ p := by
  intro l
  induction l with
  | nil =>
    intro p hp
    rcases List.mem_singleton.mp hp with rfl
    simp
  | cons c cs ih =>
    intro p hp
    rw [splitChar] at hp
    cases hsc : splitChar sep cs with
    | nil => exact absurd hsc (splitChar_ne_nil sep cs)
    | cons p0 ps =>
      rw [hsc] at hp
      by_cases hc : c = sep
      · subst hc
        simp only [ite_true, if_pos rfl] at hp
        rcases List.mem_cons.mp hp with rfl | hp
        · simp
        · exact ih p (hsc ▸ hp)
      · simp only [hc, ite_false, if_neg] at hp
        rcases List.mem_cons.mp hp with rfl | hp
        · intro hmem
          rcases List.mem_cons.mp hmem with rfl | hmem
          · exact hc rfl
          · exact ih p0 (hsc ▸ List.mem_cons_self p0 ps) hmem
        · exact ih p (hsc ▸ List.mem_cons_of_mem p0 hp)

theorem strData_append (a b : String) : (a ++ b).data = a.data ++ b.data := rfl

theorem isPrefixOf_append_self (a b : List Char) : List.isPrefixOf a (a ++ b) = true := by
  induction a with
  | nil => cases b <;> rfl
  | cons c cs ih => simp [List.isPrefixOf, ih]

theorem getD_mem_of_lt {α : Type} :
    ∀ (l : List α) (n : Nat) (d : α), n < l.length → l.getD n d ∈ l := by
  intro l
  induction l with
  | nil =>
    intro n d h
    cases h
  | cons x xs ih =>
    intro n d h
    cases n with
    | zero => exact List.mem_cons_self x xs
    | succ n =>
      exact List.mem_cons_of_mem x (ih n d (by simpa using h))

/-! ## Lemmas: parsing the canonical snapshot paths -/

theorem get_snapshot_path_data (w : Int) (op : String) (p i : Int) :
    (get_snapshot_path w op p i).data =
      "uncoordinated".data ++ '/' :: ((intStr w).data ++ '/' ::
        (op.data ++ '/' :: ((intStr p).data ++ '/' ::
          ((intStr i).data ++ '.' :: "bin".data)))) := by
  unfold get_snapshot_path
  simp only [strData_append, List.append_assoc]
  rfl

theorem get_sequencer_path_data (w i : Int) :
    (get_sequencer_path w i).data =
      "uncoordinated".data ++ '/' :: ((intStr w).data ++ '/' ::
        ("sequencer".data ++ '/' :: ((intStr i).data ++ '.' :: "bin".data))) := by
  unfold get_sequencer_path
  simp only [strData_append, List.append_assoc]
  rfl

theorem splitChar_snapshot_path (w : Int) (op : String) (p i : Int)
    (hop : '/' ∉ op.data) :
    splitChar '/' (get_snapshot_path w op p i).data =
      ["uncoordinated".data, (intStr w).data, op.data, (intStr p).data,
        (intStr i).data ++ '.' :: "bin".data] := by
  rw [get_snapshot_path_data,
      splitChar_append_sep _ _ _ (by decide),
      splitChar_append_sep _ _ _ (slash_not_mem_intStr w),
      splitChar_append_sep _ _ _ hop,
      splitChar_append_sep _ _ _ (slash_not_mem_intStr p),
      splitChar_no_sep _ _ (by
        intro hmem
        rcases List.mem_append.mp hmem with hmem | hmem
        · exact slash_not_mem_intStr i hmem
        · rcases List.mem_cons.mp hmem with h | h
          · cases h
          · revert h
            decide)]

theorem splitChar_sequencer_path (w i : Int) :
    splitChar '/' (get_sequencer_path w i).data =
      ["uncoordinated".data, (intStr w).data, "sequencer".data,
        (intStr i).data ++ '.' :: "bin".data] := by
  rw [get_sequencer_path_data,
      splitChar_append_sep _ _ _ (by decide),
      splitChar_append_sep _ _ _ (slash_not_mem_intStr w),
      splitChar_append_sep _ _ _ (by decide),
      splitChar_no_sep _ _ (by
        intro hmem
        rcases List.mem_append.mp hmem with hmem | hmem
        · exact slash_not_mem_intStr i hmem
        · rcases List.mem_cons.mp hmem with h | h
          · cases h
          · revert h
            decide)]

theorem strStarts_snapshot_path (w : Int) (op : String) (p i : Int) :
    strStarts (get_snapshot_path w op p i) "uncoordinated/" = true := by
  unfold strStarts
  rw [get_snapshot_path_data]
  have : "uncoordinated".data ++ '/' :: ((intStr w).data ++ '/' ::
      (op.data ++ '/' :: ((intStr p).data ++ '/' ::
        ((intStr i).data ++ '.' :: "bin".data)))) =
      "uncoordinated/".data ++ ((intStr w).data ++ '/' ::
      (op.data ++ '/' :: ((intStr p).data ++ '/' ::
        ((intStr i).data ++ '.' :: "bin".data)))) := by
    simp
  rw [this]
  exact isPrefixOf_append_self _ _

theorem strStarts_sequencer_path (w i : Int) :
    strStarts (get_sequencer_path w i) "uncoordinated/" = true := by
  unfold strStarts
  rw [get_sequencer_path_data]
  have : "uncoordinated".data ++ '/' :: ((intStr w).data ++ '/' ::
      ("sequencer".data ++ '/' :: ((intStr i).data ++ '.' :: "bin".data))) =
      "uncoordinated/".data ++ ((intStr w).data ++ '/' ::
      ("sequencer".data ++ '/' :: ((intStr i).data ++ '.' :: "bin".data))) := by
    simp
  rw [this]
  exact isPrefixOf_append_self _ _

theorem pyInt_mk_intStr (i : Int) : pyInt ⟨(intStr i).data⟩ = some i := pyInt_intStr i

theorem pySplit_snapshot_path (w : Int) (op : String) (p i : Int)
    (hop : '/' ∉ op.data) :
    pySplit '/' (get_snapshot_path w op p i) =
      [⟨"uncoordinated".data⟩, ⟨(intStr w).data⟩, ⟨op.data⟩, ⟨(intStr p).data⟩,
        ⟨(intStr i).data ++ '.' :: "bin".data⟩] := by
  unfold pySplit
  rw [splitChar_snapshot_path w op p i hop]
  rfl

theorem pySplit_sequencer_path (w i : Int) :
    pySplit '/' (get_sequencer_path w i) =
      [⟨"uncoordinated".data⟩, ⟨(intStr w).data⟩, ⟨"sequencer".data⟩,
        ⟨(intStr i).data ++ '.' :: "bin".data⟩] := by
  unfold pySplit
  rw [splitChar_sequencer_path w i]
  rfl

theorem pySplit_dot_trailing (i : Int) :
    pySplit '.' ⟨(intStr i).data ++ '.' :: "bin".data⟩ =
      [⟨(intStr i).data⟩, ⟨"bin".data⟩] := by
  unfold pySplit
  show (splitChar '.' ((intStr i).data ++ '.' :: "bin".data)).map _ = _
  rw [splitChar_append_sep _ _ _ (dot_not_mem_intStr i),
      splitChar_no_sep _ _ (by decide)]
  rfl

theorem parseCompKey_snapshot_path (w : Int) (op : String) (p i : Int)
    (hop : '/' ∉ op.data) :
    parseCompKey (get_snapshot_path w op p i) = .ok (some (w, op, p, i)) := by
  unfold parseCompKey
  rw [if_neg (by simp [strStarts_snapshot_path]), pySplit_snapshot_path w op p i hop]
  simp only [List.length_cons, List.length_nil, List.getD_cons_succ, List.getD_cons_zero]
  rw [if_neg (by omega), pySplit_dot_trailing i]
  simp only [List.headD]
  rw [pyInt_mk_intStr w, pyInt_mk_intStr p, pyInt_mk_intStr i]

theorem parseCompKey_sequencer_path (w i : Int) :
    parseCompKey (get_sequencer_path w i) = .ok none := by
  unfold parseCompKey
  rw [if_neg (by simp [strStarts_sequencer_path]), pySplit_sequencer_path w i]
  simp only [List.length_cons, List.length_nil]
  rw [if_pos (by omega)]

theorem isSuffixOf_append_self (a b : List Char) :
    List.isSuffixOf a (b ++ a) = true := by
  simp [List.isSuffixOf]

theorem strEnds_snapshot_path (w : Int) (op : String) (p i : Int) :
    strEnds (get_snapshot_path w op p i) ".bin" = true := by
  unfold strEnds get_snapshot_path
  rw [strData_append]
  exact isSuffixOf_append_self _ _

theorem snapshot_path_ne_sequencer_path (w : Int) (op : String) (p i : Int)
    (w' i' : Int) (hop : '/' ∉ op.data) :
    get_snapshot_path w op p i ≠ get_sequencer_path w' i' := by
  intro h
  have h1 := parseCompKey_snapshot_path w op p i hop
  rw [h, parseCompKey_sequencer_path w' i'] at h1
  cases h1

theorem snapshot_path_inj (w : Int) (op : String) (p i : Int)
    (w' : Int) (op' : String) (p' i' : Int)
    (hop : '/' ∉ op.data) (hop' : '/' ∉ op'.data)
    (h : get_snapshot_path w op p i = get_snapshot_path w' op' p' i') :
    w = w' ∧ op = op' ∧ p = p' ∧ i = i' := by
  have h1 := parseCompKey_snapshot_path w op p i hop
  rw [h, parseCompKey_snapshot_path w' op' p' i' hop'] at h1
  simp only [Except.ok.injEq, Option.some.injEq, Prod.mk.injEq] at h1
  exact ⟨h1.1.symm, h1.2.1.symm, h1.2.2.1.symm, h1.2.2.2.symm⟩

theorem mem_pySplit_no_sep (sep : Char) (s : String) (p : String)
    (hp : p ∈ pySplit sep s) : sep ∉ p.data := by
  unfold pySplit at hp
  rcases List.mem_map.mp hp with ⟨l, hl, rfl⟩
  exact mem_splitChar_no_sep sep s.data l hl

/-- A key that the compactor classifies into a group has an operator-name
segment free of `/` (it is a segment of the key's own split). -/
theorem parseCompKey_op_no_slash (f : String) (w : Int) (opn : String) (p i : Int)
    (h : parseCompKey f = .ok (some (w, opn, p, i))) : '/' ∉ opn.data := by
  unfold parseCompKey at h
  by_cases hs : strStarts f "uncoordinated/"
  · rw [if_neg (by simpa using hs)] at h
    by_cases hlen : (pySplit '/' f).length < 5
    · rw [if_pos hlen] at h
      cases h
    · rw [if_neg hlen] at h
      cases h1 : pyInt ((pySplit '/' f).getD 1 "") with
      | none => rw [h1] at h; cases h
      | some w1 =>
        cases h3 : pyInt ((pySplit '/' f).getD 3 "") with
        | none => rw [h1, h3] at h; cases h
        | some p1 =>
          cases h4 : pyInt ((pySplit '.' ((pySplit '/' f).getD 4 "")).headD "") with
          | none => rw [h1, h3, h4] at h; cases h
          | some i1 =>
            rw [h1, h3, h4] at h
            have hop2 : (pySplit '/' f).getD 2 "" = opn := by
              have := congrArg
                (fun x : Except Unit (Option (Int × String × Int × Int)) =>
                  match x with
                  | .ok (some (_, o, _, _)) => o
                  | _ => "") h
              simpa using this
            have hmem : (pySplit '/' f).getD 2 "" ∈ pySplit '/' f :=
              getD_mem_of_lt _ 2 _ (by omega)
            have hns := mem_pySplit_no_sep '/' f _ hmem
            rw [hop2] at hns
            exact hns
  · rw [if_pos (by simpa using hs)] at h
    cases h

/-! ## Lemmas: characterizing the compaction groups -/

theorem assocGet_eq_none_iff {κ β : Type} [DecidableEq κ] (l : List (κ × β)) (k : κ) :
    assocGet l k = none ↔ k ∉ l.map Prod.fst := by
  induction l with
  | nil => simp [assocGet]
  | cons e rest ih =>
    by_cases hk : k = e.1
    · simp [assocGet, hk]
    · simp [assocGet, hk, ih]

theorem assocGet_of_mem_nodup {κ β : Type} [DecidableEq κ] (l : List (κ × β))
    (k : κ) (v : β) (hnd : (l.map Prod.fst).Nodup) (hm : (k, v) ∈ l) :
    assocGet l k = some v := by
  induction l with
  | nil => cases hm
  | cons e rest ih =>
    rcases List.mem_cons.mp hm with rfl | hm
    · simp [assocGet]
    · have hk : k ≠ e.1 := by
        intro hk
        rcases hnd with _ | ⟨hne, _⟩
        exact hne k (by
          rcases List.mem_map.mpr ⟨(k, v), hm, rfl⟩ with h
          exact h) hk.symm
      rw [assocGet, if_neg hk]
      exact ih (by
        rcases hnd with _ | ⟨_, hnd⟩
        exact hnd) hm

theorem map_fst_assocModify {κ β : Type} [DecidableEq κ] (d : List (κ × β))
    (k : κ) (dflt : β) (f : β → β) :
    (assocModify d k dflt f).map Prod.fst =
      if k ∈ d.map Prod.fst then d.map Prod.fst else d.map Prod.fst ++ [k] := by
  induction d with
  | nil => simp [assocModify]
  | cons e rest ih =>
    by_cases hk : k = e.1
    · simp [assocModify, hk]
    · simp only [assocModify, if_neg hk, List.map_cons, ih]
      by_cases hmem : k ∈ rest.map Prod.fst
      · simp [hmem, Ne.symm, hk]
      · simp only [hmem, ite_false, if_neg]
        have : ¬ k ∈ (e.1 :: rest.map Prod.fst) := by
          intro h
          rcases List.mem_cons.mp h with h | h
          · exact hk h
          · exact hmem h
        simp [this, hmem]

theorem nodup_assocModify {κ β : Type} [DecidableEq κ] (d : List (κ × β))
    (k : κ) (dflt : β) (f : β → β) (hnd : (d.map Prod.fst).Nodup) :
    ((assocModify d k dflt f).map Prod.fst).Nodup := by
  rw [map_fst_assocModify]
  by_cases hmem : k ∈ d.map Prod.fst
  · simpa [hmem] using hnd
  · simp only [hmem, ite_false, if_neg]
    simpa [List.nodup_append, hmem] using hnd

theorem mem_assocModify {κ β : Type} [DecidableEq κ] (d : List (κ × β))
    (k : κ) (dflt : β) (f : β → β) (e : κ × β) (he : e ∈ assocModify d k dflt f) :
    e ∈ d ∨ (e.1 = k ∧ e.2 = f ((assocGet d k).getD dflt)) := by
  induction d with
  | nil =>
    rcases List.mem_singleton.mp he with rfl
    exact Or.inr ⟨rfl, rfl⟩
  | cons ed rest ih =>
    by_cases hk : k = ed.1
    · rw [assocModify, if_pos hk] at he
      rcases List.mem_cons.mp he with rfl | he
      · refine Or.inr ⟨rfl, ?_⟩
        rw [assocGet, if_pos hk]
        rfl
      · exact Or.inl (List.mem_cons_of_mem _ he)
    · rw [assocModify, if_neg hk] at he
      rcases List.mem_cons.mp he with rfl | he
      · exact Or.inl (List.mem_cons_self _ _)
      · rcases ih he with h | ⟨h1, h2⟩
        · exact Or.inl (List.mem_cons_of_mem _ h)
        · refine Or.inr ⟨h1, ?_⟩
          rw [assocGet, if_neg hk]
          exact h2

theorem groupLookup_addToGroups_self (gs : Groups) (w : Int)
    (opp : OperatorPartition) (e : Int × String) :
    groupLookup (addToGroups gs w opp e) w opp = groupLookup gs w opp ++ [e] := by
  unfold groupLookup addToGroups
  rw [assocGet_assocModify_self, Option.getD_some, assocGet_assocModify_self,
      Option.getD_some]

theorem groupLookup_addToGroups_ne (gs : Groups) (w : Int)
    (opp : OperatorPartition) (e : Int × String) (w' : Int)
    (opp' : OperatorPartition) (h : ¬ (w = w' ∧ opp = opp')) :
    groupLookup (addToGroups gs w opp e) w' opp' = groupLookup gs w' opp' := by
  unfold groupLookup addToGroups
  by_cases hw : w' = w
  · subst hw
    have hopp : opp' ≠ opp := by
      intro hh
      exact h ⟨rfl, hh.symm⟩
    rw [assocGet_assocModify_self, Option.getD_some,
        assocGet_assocModify_ne _ _ _ _ _ hopp]
  · rw [assocGet_assocModify_ne _ _ _ _ _ hw]

theorem buildGroupsAux_lookup (max : Int) :
    ∀ (files : List String) (gs gs' : Groups),
      buildGroupsAux max files gs = .ok gs' →
      ∀ (w : Int) (opp : OperatorPartition),
        groupLookup gs' w opp =
          groupLookup gs w opp ++ files.filterMap (keyEntry max w opp) := by
  intro files
  induction files with
  | nil =>
    intro gs gs' h w opp
    cases h
    simp
  | cons f fs ih =>
    intro gs gs' h w opp
    rw [buildGroupsAux] at h
    cases hp : parseCompKey f with
    | error e => rw [hp] at h; cases h
    | ok v =>
      cases v with
      | none =>
        rw [hp] at h
        simp only at h
        rw [ih gs gs' h w opp, List.filterMap_cons]
        have : keyEntry max w opp f = none := by
          unfold keyEntry
          rw [hp]
        rw [this]
      | some v =>
        obtain ⟨w1, opn, p1, i1⟩ := v
        rw [hp] at h
        simp only at h
        by_cases hle : i1 ≤ max
        · rw [if_pos hle] at h
          rw [ih _ gs' h w opp, List.filterMap_cons]
          by_cases hsame : w1 = w ∧ (opn, p1) = opp
          · obtain ⟨rfl, rfl⟩ := hsame
            rw [groupLookup_addToGroups_self]
            have : keyEntry max w1 (opn, p1) f = some (i1, f) := by
              unfold keyEntry
              rw [hp]
              simp [hle]
            rw [this, List.append_assoc]
            rfl
          · rw [groupLookup_addToGroups_ne _ _ _ _ _ _ hsame]
            have : keyEntry max w opp f = none := by
              unfold keyEntry
              rw [hp]
              have : ¬ (w1 = w ∧ (opn, p1) = opp ∧ i1 ≤ max) := by
                intro ⟨h1, h2, _⟩
                exact hsame ⟨h1, h2⟩
              simp only [this, ite_false, if_neg]
            rw [this]
        · rw [if_neg hle] at h
          rw [ih gs gs' h w opp, List.filterMap_cons]
          have : keyEntry max w opp f = none := by
            unfold keyEntry
            rw [hp]
            have : ¬ (w1 = w ∧ (opn, p1) = opp ∧ i1 ≤ max) := by
              intro ⟨_, _, h3⟩
              exact hle h3
            simp only [this, ite_false, if_neg]
          rw [this]

theorem assocGet_map_val {κ β γ : Type} [DecidableEq κ] (l : List (κ × β))
    (g : β → γ) (k : κ) :
    assocGet (l.map (fun e => (e.1, g e.2))) k = (assocGet l k).map g := by
  induction l with
  | nil => rfl
  | cons e rest ih =>
    by_cases hk : k = e.1
    · simp [assocGet, hk]
    · simp [assocGet, hk, ih]

theorem groupLookup_sortGroups (gs : Groups) (w : Int) (opp : OperatorPartition) :
    groupLookup (sortGroups gs) w opp = sortByFst (groupLookup gs w opp) := by
  unfold groupLookup sortGroups
  rw [assocGet_map_val]
  cases hw : assocGet gs w with
  | none => rfl
  | some wg =>
    show (assocGet (wg.map (fun oe => (oe.1, sortByFst oe.2))) opp).getD []
      = sortByFst ((assocGet wg opp).getD [])
    rw [assocGet_map_val]
    cases assocGet wg opp <;> rfl

theorem get_uncoordinated_lookup (files : List String) (max : Int) (gs : Groups)
    (h : get_uncoordinated_snapshots_per_worker files max = .ok gs)
    (w : Int) (opp : OperatorPartition) :
    groupLookup gs w opp = sortByFst (files.filterMap (keyEntry max w opp)) := by
  unfold get_uncoordinated_snapshots_per_worker at h
  cases hb : buildGroupsAux max files [] with
  | error e => rw [hb] at h; cases h
  | ok gs0 =>
    rw [hb] at h
    cases h
    rw [groupLookup_sortGroups, buildGroupsAux_lookup max files [] gs0 hb w opp]
    rfl

theorem buildGroupsAux_no_error (max : Int) :
    ∀ (files : List String) (gs gs' : Groups),
      buildGroupsAux max files gs = .ok gs' →
      ∀ f ∈ files, parseCompKey f ≠ .error () := by
  intro files
  induction files with
  | nil =>
    intro gs gs' _ f hf
    cases hf
  | cons g fs ih =>
    intro gs gs' h f hf
    rw [buildGroupsAux] at h
    cases hp : parseCompKey g with
    | error e => rw [hp] at h; cases h
    | ok v =>
      rw [hp] at h
      rcases List.mem_cons.mp hf with rfl | hf
      · rw [hp]
        intro hh
        cases hh
      · cases v with
        | none => exact ih gs gs' h f hf
        | some v =>
          obtain ⟨w1, opn, p1, i1⟩ := v
          simp only at h
          by_cases hle : i1 ≤ max
          · rw [if_pos hle] at h
            exact ih _ gs' h f hf
          · rw [if_neg hle] at h
            exact ih gs gs' h f hf

theorem buildGroupsAux_ok_of_no_error (max : Int) :
    ∀ (files : List String), (∀ f ∈ files, parseCompKey f ≠ .error ()) →
      ∀ gs : Groups, ∃ gs', buildGroupsAux max files gs = .ok gs' := by
  intro files
  induction files with
  | nil =>
    intro _ gs
    exact ⟨gs, rfl⟩
  | cons f fs ih =>
    intro h gs
    have hfs : ∀ g ∈ fs, parseCompKey g ≠ .error () :=
      fun g hg => h g (List.mem_cons_of_mem f hg)
    cases hp : parseCompKey f with
    | error e =>
      obtain ⟨⟩ := e
      exact absurd hp (h f (List.mem_cons_self f fs))
    | ok v =>
      cases v with
      | none =>
        obtain ⟨gs', hgs'⟩ := ih hfs gs
        exact ⟨gs', by rw [buildGroupsAux, hp]; exact hgs'⟩
      | some v =>
        obtain ⟨w1, opn, p1, i1⟩ := v
        by_cases hle : i1 ≤ max
        · obtain ⟨gs', hgs'⟩ := ih hfs (addToGroups gs w1 (opn, p1) (i1, f))
          refine ⟨gs', ?_⟩
          rw [buildGroupsAux, hp]
          simp only [if_pos hle]
          exact hgs'
        · obtain ⟨gs', hgs'⟩ := ih hfs gs
          refine ⟨gs', ?_⟩
          rw [buildGroupsAux, hp]
          simp only [if_neg hle]
          exact hgs'

theorem assocGet_some_mem {κ β : Type} [DecidableEq κ] (l : List (κ × β))
    (k : κ) (v : β) (h : assocGet l k = some v) : (k, v) ∈ l := by
  induction l with
  | nil => cases h
  | cons e rest ih =>
    by_cases hk : k = e.1
    · rw [assocGet, if_pos hk] at h
      cases h
      subst hk
      exact List.mem_cons_self _ _
    · rw [assocGet, if_neg hk] at h
      exact List.mem_cons_of_mem _ (ih h)

theorem addToGroups_wf (gs : Groups) (w : Int) (opp : OperatorPartition)
    (e : Int × String) (h : GroupsWF gs) : GroupsWF (addToGroups gs w opp e) := by
  obtain ⟨h1, h2⟩ := h
  constructor
  · exact nodup_assocModify gs w [] _ h1
  · intro we hwe
    rcases mem_assocModify gs w [] _ we hwe with hwe | ⟨hwe1, hwe2⟩
    · exact h2 we hwe
    · rw [hwe2]
      refine nodup_assocModify _ opp [] _ ?_
      cases hg : assocGet gs w with
      | none => simp
      | some wg =>
        simp only [hg, Option.getD_some]
        exact h2 (w, wg) (assocGet_some_mem gs w wg hg)

theorem buildGroupsAux_wf (max : Int) :
    ∀ (files : List String) (gs gs' : Groups), GroupsWF gs →
      buildGroupsAux max files gs = .ok gs' → GroupsWF gs' := by
  intro files
  induction files with
  | nil =>
    intro gs gs' hwf h
    cases h
    exact hwf
  | cons f fs ih =>
    intro gs gs' hwf h
    rw [buildGroupsAux] at h
    cases hp : parseCompKey f with
    | error e => rw [hp] at h; cases h
    | ok v =>
      rw [hp] at h
      cases v with
      | none => exact ih gs gs' hwf h
      | some v =>
        obtain ⟨w1, opn, p1, i1⟩ := v
        simp only at h
        by_cases hle : i1 ≤ max
        · rw [if_pos hle] at h
          exact ih _ gs' (addToGroups_wf gs w1 (opn, p1) (i1, f) hwf) h
        · rw [if_neg hle] at h
          exact ih gs gs' hwf h

theorem sortGroups_wf (gs : Groups) (h : GroupsWF gs) : GroupsWF (sortGroups gs) := by
  obtain ⟨h1, h2⟩ := h
  constructor
  · unfold sortGroups
    have : (gs.map (fun we => (we.1, we.2.map (fun oe => (oe.1, sortByFst oe.2))))).map
        Prod.fst = gs.map Prod.fst := by
      rw [List.map_map]
      rfl
    rw [this]
    exact h1
  · intro we hwe
    unfold sortGroups at hwe
    rcases List.mem_map.mp hwe with ⟨we0, hwe0, rfl⟩
    have : ((we0.2.map (fun oe => (oe.1, sortByFst oe.2))).map Prod.fst)
        = we0.2.map Prod.fst := by
      rw [List.map_map]
      rfl
    simp only
    rw [this]
    exact h2 we0 hwe0

theorem get_uncoordinated_wf (files : List String) (max : Int) (gs : Groups)
    (h : get_uncoordinated_snapshots_per_worker files max = .ok gs) : GroupsWF gs := by
  unfold get_uncoordinated_snapshots_per_worker at h
  cases hb : buildGroupsAux max files [] with
  | error e => rw [hb] at h; cases h
  | ok gs0 =>
    rw [hb] at h
    cases h
    exact sortGroups_wf gs0 (buildGroupsAux_wf max files [] gs0 ⟨by simp, by simp⟩ hb)

theorem mem_groups_eq_lookup (gs : Groups) (w : Int) (wg : WorkerGroups)
    (opp : OperatorPartition) (snaps : GroupEntry) (hwf : GroupsWF gs)
    (h1 : (w, wg) ∈ gs) (h2 : (opp, snaps) ∈ wg) :
    snaps = groupLookup gs w opp := by
  unfold groupLookup
  rw [assocGet_of_mem_nodup gs w wg hwf.1 h1, Option.getD_some,
      assocGet_of_mem_nodup wg opp snaps (hwf.2 (w, wg) h1) h2, Option.getD_some]

/-! ## Lemmas: key lists of the store under put/remove -/

theorem keysOf_storePut (s : Store) (k : String) (v : Payload) :
    keysOf (storePut s k v) =
      if k ∈ keysOf s then keysOf s else keysOf s ++ [k] := by
  unfold keysOf storePut
  induction s with
  | nil => simp [assocSet]
  | cons e rest ih =>
    by_cases hk : k = e.1
    · simp [assocSet, hk]
    · simp only [assocSet, if_neg hk, List.map_cons, ih]
      by_cases hmem : k ∈ rest.map Prod.fst
      · simp [hmem, hk]
      · have : ¬ k ∈ e.1 :: rest.map Prod.fst := by
          intro h
          rcases List.mem_cons.mp h with h | h
          · exact hk h
          · exact hmem h
        simp [hmem, this]

theorem nodup_keysOf_storePut (s : Store) (k : String) (v : Payload)
    (h : (keysOf s).Nodup) : (keysOf (storePut s k v)).Nodup := by
  rw [keysOf_storePut]
  by_cases hmem : k ∈ keysOf s
  · simpa [hmem] using h
  · simp only [hmem, ite_false, if_neg]
    simpa [List.nodup_append, hmem] using h

theorem keysOf_storeRemove (s : Store) (k : String) :
    keysOf (storeRemove s k) = (keysOf s).filter (fun j => !(j == k)) := by
  unfold keysOf storeRemove
  exact map_fst_filter_key s (fun j => !(j == k))

theorem keysOf_removeList :
    ∀ (dels : List String) (s : Store),
      keysOf (dels.foldl storeRemove s) =
        (keysOf s).filter (fun j => !(dels.contains j)) := by
  intro dels
  induction dels with
  | nil =>
    intro s
    simp
  | cons d ds ih =>
    intro s
    rw [List.foldl_cons, ih (storeRemove s d), keysOf_storeRemove,
        List.filter_filter]
    refine List.filter_congr ?_
    intro j _
    by_cases hjd : j = d
    · simp [hjd]
    · simp [hjd, List.contains_cons, Ne.symm hjd]

theorem storeGet_removeList_notin :
    ∀ (dels : List String) (s : Store) (k : String), k ∉ dels →
      storeGet (dels.foldl storeRemove s) k = storeGet s k := by
  intro dels
  induction dels with
  | nil =>
    intro s k _
    rfl
  | cons d ds ih =>
    intro s k hk
    rw [List.foldl_cons, ih (storeRemove s d) k (fun h => hk (List.mem_cons_of_mem d h)),
        storeGet_storeRemove,
        if_neg (fun h : k = d => hk (h ▸ List.mem_cons_self d ds))]

/-! ## Lemmas: membership in the deletion lists -/

theorem mem_delsOf (wgs : WorkerGroups) (k : String) (h : k ∈ delsOf wgs) :
    ∃ oe ∈ wgs, 1 < oe.2.length ∧ k ∈ oe.2.map Prod.snd := by
  induction wgs with
  | nil => cases h
  | cons oe rest ih =>
    unfold delsOf at h
    rw [List.foldr_cons] at h
    by_cases hlen : oe.2.length ≤ 1
    · rw [if_pos hlen] at h
      obtain ⟨oe', hoe', hl, hm⟩ := ih h
      exact ⟨oe', List.mem_cons_of_mem _ hoe', hl, hm⟩
    · rw [if_neg hlen] at h
      rcases List.mem_append.mp h with h | h
      · exact ⟨oe, List.mem_cons_self _ _, by omega, h⟩
      · obtain ⟨oe', hoe', hl, hm⟩ := ih h
        exact ⟨oe', List.mem_cons_of_mem _ hoe', hl, hm⟩

theorem mem_delsOfAll (gs : Groups) (k : String) (h : k ∈ delsOfAll gs) :
    ∃ we ∈ gs, k ∈ delsOf we.2 := by
  induction gs with
  | nil => cases h
  | cons we rest ih =>
    unfold delsOfAll at h
    rw [List.foldr_cons] at h
    rcases List.mem_append.mp h with h | h
    · exact ⟨we, List.mem_cons_self _ _, h⟩
    · obtain ⟨we', hwe', hm⟩ := ih h
      exact ⟨we', List.mem_cons_of_mem _ hwe', hm⟩

theorem delsOf_all_mem (wgs : WorkerGroups) (oe : OperatorPartition × GroupEntry)
    (hoe : oe ∈ wgs) (hlen : 1 < oe.2.length) (k : String)
    (hk : k ∈ oe.2.map Prod.snd) : k ∈ delsOf wgs := by
  induction wgs with
  | nil => cases hoe
  | cons oe0 rest ih =>
    unfold delsOf
    rw [List.foldr_cons]
    rcases List.mem_cons.mp hoe with rfl | hoe
    · rw [if_neg (by omega)]
      exact List.mem_append.mpr (Or.inl hk)
    · by_cases hl0 : oe0.2.length ≤ 1
      · rw [if_pos hl0]
        exact ih hoe
      · rw [if_neg hl0]
        exact List.mem_append.mpr (Or.inr (ih hoe))

theorem delsOfAll_all_mem (gs : Groups) (we : Int × WorkerGroups) (hwe : we ∈ gs)
    (k : String) (hk : k ∈ delsOf we.2) : k ∈ delsOfAll gs := by
  induction gs with
  | nil => cases hwe
  | cons we0 rest ih =>
    unfold delsOfAll
    rw [List.foldr_cons]
    rcases List.mem_cons.mp hwe with rfl | hwe
    · exact List.mem_append.mpr (Or.inl hk)
    · exact List.mem_append.mpr (Or.inr (ih hwe))

/-! ## Lemmas: the effect of one compaction pass on the store -/

theorem compactGroupList_spec (w : Int) :
    ∀ (wgs : WorkerGroups) (st : Store) (dels : List String)
      (out : Store × List String),
      compactGroupList w wgs (st, dels) = .ok out →
      out.2 = dels ++ delsOf wgs ∧
      (∀ k, (∀ oe ∈ wgs, 1 < oe.2.length → k ≠ get_snapshot_path w oe.1.1 oe.1.2 0) →
        storeGet out.1 k = storeGet st k) ∧
      ∃ newKeys : List String,
        keysOf out.1 = keysOf st ++ newKeys ∧
        (∀ k ∈ newKeys, ∃ oe ∈ wgs, 1 < oe.2.length ∧
          k = get_snapshot_path w oe.1.1 oe.1.2 0) ∧
        ((keysOf st).Nodup → (keysOf st ++ newKeys).Nodup) := by
  intro wgs
  induction wgs with
  | nil =>
    intro st dels out h
    cases h
    refine ⟨by simp [delsOf], fun k _ => rfl, [], by simp, by simp, by simp⟩
  | cons oe rest ih =>
    intro st dels out h
    obtain ⟨opp, snaps⟩ := oe
    rw [compactGroupList] at h
    by_cases hlen : snaps.length ≤ 1
    · rw [if_pos hlen] at h
      obtain ⟨hdels, hget, newKeys, hkeys, hnk, hnd⟩ := ih st dels out h
      refine ⟨?_, ?_, newKeys, hkeys, ?_, hnd⟩
      · rw [hdels]
        unfold delsOf
        rw [List.foldr_cons, if_pos hlen]
      · intro k hk
        exact hget k (fun oe' hoe' => hk oe' (List.mem_cons_of_mem _ hoe'))
      · intro k hk
        obtain ⟨oe', hoe', hl, hp⟩ := hnk k hk
        exact ⟨oe', List.mem_cons_of_mem _ hoe', hl, hp⟩
    · rw [if_neg hlen] at h
      cases hm : mergeGroup st snaps [] with
      | error e => rw [hm] at h; cases h
      | ok data =>
        rw [hm] at h
        simp only at h
        set path := get_snapshot_path w opp.1 opp.2 0 with hpath
        set st' := if data.isEmpty then st else storePut st path (.kv data) with hst'
        obtain ⟨hdels, hget, newKeys, hkeys, hnk, hnd⟩ :=
          ih st' (dels ++ snaps.map Prod.snd) out h
        have hkeys_st' : keysOf st' = keysOf st ∨
            (keysOf st' = keysOf st ++ [path] ∧ path ∉ keysOf st) := by
          rw [hst']
          by_cases hde : data.isEmpty
          · rw [if_pos hde]
            exact Or.inl rfl
          · rw [if_neg hde, keysOf_storePut]
            by_cases hmem : path ∈ keysOf st
            · rw [if_pos hmem]
              exact Or.inl rfl
            · rw [if_neg hmem]
              exact Or.inr ⟨rfl, hmem⟩
        have hget_st' : ∀ k, k ≠ path → storeGet st' k = storeGet st k := by
          intro k hk
          rw [hst']
          by_cases hde : data.isEmpty
          · rw [if_pos hde]
          · rw [if_neg hde]
            exact storeGet_storePut_ne st path k _ hk
        refine ⟨?_, ?_, ?_⟩
        · rw [hdels]
          unfold delsOf
          rw [List.foldr_cons, if_neg hlen]
          simp [List.append_assoc]
        · intro k hk
          rw [hget k (fun oe' hoe' => hk oe' (List.mem_cons_of_mem _ hoe')),
              hget_st' k (hk (opp, snaps) (List.mem_cons_self _ _)
                (by show 1 < snaps.length; omega))]
        · rcases hkeys_st' with heq | ⟨heq, hnotin⟩
          · refine ⟨newKeys, by rw [hkeys, heq], ?_, ?_⟩
            · intro k hk
              obtain ⟨oe', hoe', hl, hp⟩ := hnk k hk
              exact ⟨oe', List.mem_cons_of_mem _ hoe', hl, hp⟩
            · intro hnds
              have := hnd (by rw [heq]; exact hnds)
              rw [heq] at this
              exact this
          · refine ⟨path :: newKeys, ?_, ?_, ?_⟩
            · rw [hkeys, heq, List.append_assoc]
              rfl
            · intro k hk
              rcases List.mem_cons.mp hk with rfl | hk
              · exact ⟨(opp, snaps), List.mem_cons_self _ _,
                  (by show 1 < snaps.length; omega), rfl⟩
              · obtain ⟨oe', hoe', hl, hp⟩ := hnk k hk
                exact ⟨oe', List.mem_cons_of_mem _ hoe', hl, hp⟩
            · intro hnds
              have hnds' : (keysOf st').Nodup := by
                rw [heq]
                simpa [List.nodup_append, hnotin] using hnds
              have := hnd hnds'
              rw [heq, List.append_assoc] at this
              exact this

theorem compactWorkers_spec :
    ∀ (gs : Groups) (st : Store) (dels : List String) (out : Store × List String),
      compactWorkers gs (st, dels) = .ok out →
      out.2 = dels ++ delsOfAll gs ∧
      (∀ k, (∀ we ∈ gs, ∀ oe ∈ we.2, 1 < oe.2.length →
          k ≠ get_snapshot_path we.1 oe.1.1 oe.1.2 0) →
        storeGet out.1 k = storeGet st k) ∧
      ∃ newKeys : List String,
        keysOf out.1 = keysOf st ++ newKeys ∧
        (∀ k ∈ newKeys, ∃ we ∈ gs, ∃ oe ∈ we.2, 1 < oe.2.length ∧
          k = get_snapshot_path we.1 oe.1.1 oe.1.2 0) ∧
        ((keysOf st).Nodup → (keysOf st ++ newKeys).Nodup) := by
  intro gs
  induction gs with
  | nil =>
    intro st dels out h
    cases h
    refine ⟨by simp [delsOfAll], fun k _ => rfl, [], by simp, by simp, by simp⟩
  | cons we rest ih =>
    intro st dels out h
    obtain ⟨w, wgs⟩ := we
    rw [compactWorkers] at h
    cases hg : compactGroupList w wgs (st, dels) with
    | error e => rw [hg] at h; cases h
    | ok acc' =>
      rw [hg] at h
      simp only at h
      obtain ⟨st1, dels1⟩ := acc'
      obtain ⟨hdels1', hget1', nk1, hkeys1', hnk1, hnd1'⟩ :=
        compactGroupList_spec w wgs st dels (st1, dels1) hg
      have hdels1 : dels1 = dels ++ delsOf wgs := hdels1'
      have hget1 : ∀ k, (∀ oe ∈ wgs, 1 < oe.2.length →
          k ≠ get_snapshot_path w oe.1.1 oe.1.2 0) →
          storeGet st1 k = storeGet st k := hget1'
      have hkeys1 : keysOf st1 = keysOf st ++ nk1 := hkeys1'
      have hnd1 : (keysOf st).Nodup → (keysOf st ++ nk1).Nodup := hnd1'
      obtain ⟨hdels2, hget2, nk2, hkeys2, hnk2, hnd2⟩ := ih st1 dels1 out h
      refine ⟨?_, ?_, ?_⟩
      · rw [hdels2, hdels1]
        unfold delsOfAll
        rw [List.foldr_cons]
        simp [List.append_assoc]
      · intro k hk
        rw [hget2 k (fun we' hwe' oe' hoe' hl =>
              hk we' (List.mem_cons_of_mem _ hwe') oe' hoe' hl),
            hget1 k (fun oe' hoe' hl =>
              hk (w, wgs) (List.mem_cons_self _ _) oe' hoe' hl)]
      · refine ⟨nk1 ++ nk2, ?_, ?_, ?_⟩
        · rw [hkeys2, hkeys1, List.append_assoc]
        · intro k hk
          rcases List.mem_append.mp hk with hk | hk
          · obtain ⟨oe', hoe', hl, hp⟩ := hnk1 k hk
            exact ⟨(w, wgs), List.mem_cons_self _ _, oe', hoe', hl, hp⟩
          · obtain ⟨we', hwe', oe', hoe', hl, hp⟩ := hnk2 k hk
            exact ⟨we', List.mem_cons_of_mem _ hwe', oe', hoe', hl, hp⟩
        · intro hnds
          have h1 := hnd1 hnds
          have h2 := hnd2 (hkeys1 ▸ h1)
          rw [hkeys1, List.append_assoc] at h2
          exact h2

/-! ## Lemmas: what the group entries say about their keys -/

theorem keyEntry_some_inv (max w : Int) (opp : OperatorPartition) (f : String)
    (e : Int × String) (h : keyEntry max w opp f = some e) :
    e.2 = f ∧ parseCompKey f = .ok (some (w, opp.1, opp.2, e.1)) ∧ e.1 ≤ max := by
  unfold keyEntry at h
  cases hp : parseCompKey f with
  | error err => rw [hp] at h; cases h
  | ok v =>
    cases v with
    | none => rw [hp] at h; cases h
    | some v =>
      obtain ⟨w1, opn, p1, i1⟩ := v
      rw [hp] at h
      simp only at h
      by_cases hcond : w1 = w ∧ (opn, p1) = opp ∧ i1 ≤ max
      · rw [if_pos hcond] at h
        cases h
        obtain ⟨rfl, hopp, hle⟩ := hcond
        refine ⟨rfl, ?_, hle⟩
        rw [← hopp]
      · rw [if_neg hcond] at h
        cases h

theorem group_entry_parse (files : List String) (max : Int) (gs : Groups)
    (hgs : get_uncoordinated_snapshots_per_worker files max = .ok gs)
    (w : Int) (opp : OperatorPartition) (e : Int × String)
    (he : e ∈ groupLookup gs w opp) :
    e.2 ∈ files ∧ parseCompKey e.2 = .ok (some (w, opp.1, opp.2, e.1)) ∧
      e.1 ≤ max := by
  rw [get_uncoordinated_lookup files max gs hgs w opp] at he
  rw [mem_sortByFst] at he
  rcases List.mem_filterMap.mp he with ⟨f, hf, hk⟩
  obtain ⟨hef, hparse, hle⟩ := keyEntry_some_inv max w opp f e hk
  exact ⟨hef ▸ hf, hef ▸ hparse, hle⟩

theorem group_mem_entry_parse (files : List String) (max : Int) (gs : Groups)
    (hgs : get_uncoordinated_snapshots_per_worker files max = .ok gs)
    (we : Int × WorkerGroups) (hwe : we ∈ gs)
    (oe : OperatorPartition × GroupEntry) (hoe : oe ∈ we.2)
    (e : Int × String) (he : e ∈ oe.2) :
    e.2 ∈ files ∧ parseCompKey e.2 = .ok (some (we.1, oe.1.1, oe.1.2, e.1)) ∧
      e.1 ≤ max := by
  have hwf := get_uncoordinated_wf files max gs hgs
  have hlk : oe.2 = groupLookup gs we.1 oe.1 :=
    mem_groups_eq_lookup gs we.1 we.2 oe.1 oe.2 hwf hwe hoe
  exact group_entry_parse files max gs hgs we.1 oe.1 e (hlk ▸ he)

theorem group_opp_no_slash (files : List String) (max : Int) (gs : Groups)
    (hgs : get_uncoordinated_snapshots_per_worker files max = .ok gs)
    (we : Int × WorkerGroups) (hwe : we ∈ gs)
    (oe : OperatorPartition × GroupEntry) (hoe : oe ∈ we.2)
    (hne : oe.2 ≠ []) : '/' ∉ oe.1.1.data := by
  cases hsnaps : oe.2 with
  | nil => exact absurd hsnaps hne
  | cons e es =>
    have he : e ∈ oe.2 := by
      rw [hsnaps]
      exact List.mem_cons_self _ _
    obtain ⟨_, hparse, _⟩ := group_mem_entry_parse files max gs hgs we hwe oe hoe e he
    exact parseCompKey_op_no_slash e.2 we.1 oe.1.1 oe.1.2 e.1 hparse

/-- Claim C9: a full compaction run never writes, merges, or deletes any
sequencer record key — for every worker and snapshot id, the object at
`uncoordinated/<worker>/sequencer/<id>.bin` is the same after the run as
before it. -/
theorem compaction_leaves_sequencer_untouched (store : Store) (max : Int)
    (out : Store) (w i : Int)
    (h : start_uncoordinated_snapshot_compaction store max = .ok out) :
    storeGet out (get_sequencer_path w i) = storeGet store (get_sequencer_path w i) := by
  unfold start_uncoordinated_snapshot_compaction compact_uncoordinated_deltas at h
  cases hgs : get_uncoordinated_snapshots_per_worker (listBinAll store) max with
  | error e => rw [hgs] at h; cases h
  | ok gs =>
    rw [hgs] at h
    simp only at h
    cases hcw : compactWorkers gs (store, []) with
    | error e => rw [hcw] at h; cases h
    | ok acc =>
      rw [hcw] at h
      simp only at h
      obtain ⟨st', dels'⟩ := acc
      injection h with h
      subst h
      obtain ⟨hdels', hget', _⟩ := compactWorkers_spec gs store [] (st', dels') hcw
      have hdels'' : dels' = delsOfAll gs := by
        have : dels' = [] ++ delsOfAll gs := hdels'
        simpa using this
      have hnotin : get_sequencer_path w i ∉ dels' := by
        rw [hdels'']
        intro hmem
        obtain ⟨we, hwe, hd⟩ := mem_delsOfAll gs _ hmem
        obtain ⟨oe, hoe, hlen, hm⟩ := mem_delsOf we.2 _ hd
        rcases List.mem_map.mp hm with ⟨e, he, hef⟩
        obtain ⟨_, hparse, _⟩ :=
          group_mem_entry_parse (listBinAll store) max gs hgs we hwe oe hoe e he
        rw [hef, parseCompKey_sequencer_path w i] at hparse
        cases hparse
      rw [storeGet_removeList_notin dels' st' _ hnotin]
      refine hget' _ ?_
      intro we hwe oe hoe hlen heq
      have hslash : '/' ∉ oe.1.1.data := by
        refine group_opp_no_slash (listBinAll store) max gs hgs we hwe oe hoe ?_
        intro hnil
        rw [hnil] at hlen
        simp at hlen
      exact snapshot_path_ne_sequencer_path we.1 oe.1.1 oe.1.2 0 w i hslash heq.symm

/-- Witness for C9: compacting a store holding one sequencer record and a
two-delta state group leaves the sequencer object untouched while the
state group is compacted. -/
theorem compaction_leaves_sequencer_untouched_witness :
    (start_uncoordinated_snapshot_compaction
        [(get_sequencer_path 0 7, .seq ⟨[(("p0", 0), 10)], [], 1, 2⟩),
         (get_snapshot_path 0 "orders" 0 1, .kv [("a", 1)]),
         (get_snapshot_path 0 "orders" 0 2, .kv [("b", 2)])] 2
      = .ok
        [(get_sequencer_path 0 7, .seq ⟨[(("p0", 0), 10)], [], 1, 2⟩),
         (get_snapshot_path 0 "orders" 0 0, .kv [("a", 1), ("b", 2)])]) ∧
    storeGet
        [(get_sequencer_path 0 7, .seq ⟨[(("p0", 0), 10)], [], 1, 2⟩),
         (get_snapshot_path 0 "orders" 0 0, .kv [("a", 1), ("b", 2)])]
        (get_sequencer_path 0 7)
      = storeGet
        [(get_sequencer_path 0 7, .seq ⟨[(("p0", 0), 10)], [], 1, 2⟩),
         (get_snapshot_path 0 "orders" 0 1, .kv [("a", 1)]),
         (get_snapshot_path 0 "orders" 0 2, .kv [("b", 2)])]
        (get_sequencer_path 0 7) :=
  ⟨rfl,
    compaction_leaves_sequencer_untouched
      [(get_sequencer_path 0 7, .seq ⟨[(("p0", 0), 10)], [], 1, 2⟩),
       (get_snapshot_path 0 "orders" 0 1, .kv [("a", 1)]),
       (get_snapshot_path 0 "orders" 0 2, .kv [("b", 2)])] 2
      [(get_sequencer_path 0 7, .seq ⟨[(("p0", 0), 10)], [], 1, 2⟩),
       (get_snapshot_path 0 "orders" 0 0, .kv [("a", 1), ("b", 2)])] 0 7 rfl⟩

/-! ## Lemmas: a run over all-small groups is a no-op -/

theorem compactGroupList_all_small (w : Int) :
    ∀ (wgs : WorkerGroups) (acc : Store × List String),
      (∀ oe ∈ wgs, oe.2.length ≤ 1) →
      compactGroupList w wgs acc = .ok acc := by
  intro wgs
  induction wgs with
  | nil =>
    intro acc _
    rfl
  | cons oe rest ih =>
    intro acc h
    obtain ⟨opp, snaps⟩ := oe
    obtain ⟨st, dels⟩ := acc
    rw [compactGroupList,
        if_pos (h (opp, snaps) (List.mem_cons_self _ _))]
    exact ih (st, dels) (fun oe' hoe' => h oe' (List.mem_cons_of_mem _ hoe'))

theorem compactWorkers_all_small :
    ∀ (gs : Groups) (acc : Store × List String),
      (∀ we ∈ gs, ∀ oe ∈ we.2, oe.2.length ≤ 1) →
      compactWorkers gs acc = .ok acc := by
  intro gs
  induction gs with
  | nil =>
    intro acc _
    rfl
  | cons we rest ih =>
    intro acc h
    obtain ⟨w, wgs⟩ := we
    rw [compactWorkers,
        compactGroupList_all_small w wgs acc (h (w, wgs) (List.mem_cons_self _ _))]
    exact ih acc (fun we' hwe' => h we' (List.mem_cons_of_mem _ hwe'))

theorem compact_no_op (store : Store) (files : List String) (max : Int)
    (gs : Groups)
    (hgs : get_uncoordinated_snapshots_per_worker files max = .ok gs)
    (h : ∀ we ∈ gs, ∀ oe ∈ we.2, oe.2.length ≤ 1) :
    compact_uncoordinated_deltas store files max = .ok store := by
  unfold compact_uncoordinated_deltas
  rw [hgs]
  simp only
  rw [compactWorkers_all_small gs (store, []) h]
  rfl

theorem get_uncoordinated_no_error (files : List String) (max : Int) (gs : Groups)
    (h : get_uncoordinated_snapshots_per_worker files max = .ok gs) :
    ∀ f ∈ files, parseCompKey f ≠ .error () := by
  unfold get_uncoordinated_snapshots_per_worker at h
  cases hb : buildGroupsAux max files [] with
  | error e => rw [hb] at h; cases h
  | ok gs0 => exact buildGroupsAux_no_error max files [] gs0 hb

theorem filterMap_length_le_one {α β : Type} :
    ∀ (l : List α) (g : α → Option β) (k0 : α), l.Nodup →
      (∀ k ∈ l, (g k).isSome → k = k0) →
      (l.filterMap g).length ≤ 1 := by
  intro l
  induction l with
  | nil =>
    intro g k0 _ _
    simp
  | cons x xs ih =>
    intro g k0 hnd h
    rw [List.filterMap_cons]
    cases hx : g x with
    | none =>
      exact ih g k0 (List.Nodup.of_cons hnd)
        (fun k hk hs => h k (List.mem_cons_of_mem _ hk) hs)
    | some b =>
      have hx0 : x = k0 := h x (List.mem_cons_self _ _) (by simp [hx])
      have hrest : xs.filterMap g = [] := by
        rw [List.filterMap_eq_nil_iff]
        intro k hk
        cases hgk : g k with
        | none => rfl
        | some b' =>
          have : k = k0 := h k (List.mem_cons_of_mem _ hk) (by simp [hgk])
          rcases hnd with _ | ⟨hne, _⟩
          exact absurd (this.trans hx0.symm) (fun hh => hne k hk hh.symm)
      rw [hrest]
      simp

/-! ## Lemmas: after a successful run every group has at most one delta -/

theorem second_run_count (store : Store) (max : Int) (gs : Groups)
    (st' : Store) (dels' newKeys : List String)
    (hgs : get_uncoordinated_snapshots_per_worker (listBinAll store) max = .ok gs)
    (hdels : dels' = delsOfAll gs)
    (hkeys : keysOf st' = keysOf store ++ newKeys)
    (hnk : ∀ k ∈ newKeys, ∃ we ∈ gs, ∃ oe ∈ we.2, 1 < oe.2.length ∧
      k = get_snapshot_path we.1 oe.1.1 oe.1.2 0)
    (hndall : (keysOf store ++ newKeys).Nodup)
    (w : Int) (opp : OperatorPartition) :
    ((listBinAll (dels'.foldl storeRemove st')).filterMap
      (keyEntry max w opp)).length ≤ 1 := by
  have hbinlist : ∀ s : Store, listBinAll s = (keysOf s).filter (fun k => strEnds k ".bin") := by
    intro s
    rfl
  have hout : listBinAll (dels'.foldl storeRemove st') =
      ((keysOf store).filter (fun j => !(dels'.contains j))).filter
          (fun k => strEnds k ".bin") ++
        (newKeys.filter (fun j => !(dels'.contains j))).filter
          (fun k => strEnds k ".bin") := by
    rw [hbinlist, keysOf_removeList, hkeys, List.filter_append, List.filter_append]
  rw [hout, List.filterMap_append, List.length_append]
  have hG0len : (groupLookup gs w opp).length =
      ((listBinAll store).filterMap (keyEntry max w opp)).length := by
    rw [get_uncoordinated_lookup _ _ _ hgs, length_sortByFst]
  by_cases hbig : 1 < ((listBinAll store).filterMap (keyEntry max w opp)).length
  · -- the first-run group for (w, opp) was merged: all its keys are deleted
    have hpart1 : (((keysOf store).filter (fun j => !(dels'.contains j))).filter
        (fun k => strEnds k ".bin")).filterMap (keyEntry max w opp) = [] := by
      rw [List.filterMap_eq_nil_iff]
      intro f hf
      cases hg : keyEntry max w opp f with
      | none => rfl
      | some e =>
        exfalso
        obtain ⟨hef, hparse, hle⟩ := keyEntry_some_inv max w opp f e hg
        have hfbin := List.mem_filter.mp hf
        have hfnd := List.mem_filter.mp hfbin.1
        have hfstore : f ∈ listBinAll store := by
          rw [hbinlist]
          exact List.mem_filter.mpr ⟨hfnd.1, hfbin.2⟩
        have heG0 : e ∈ (listBinAll store).filterMap (keyEntry max w opp) :=
          List.mem_filterMap.mpr ⟨f, hfstore, hg⟩
        have helk : e ∈ groupLookup gs w opp := by
          rw [get_uncoordinated_lookup _ _ _ hgs, mem_sortByFst]
          exact heG0
        cases hwg : assocGet gs w with
        | none => simp [groupLookup, hwg, assocGet] at helk
        | some wg =>
          cases hsn : assocGet wg opp with
          | none => simp [groupLookup, hwg, hsn] at helk
          | some snaps =>
            have hsnaps : e ∈ snaps := by
              simpa [groupLookup, hwg, hsn] using helk
            have hlksnaps : snaps = groupLookup gs w opp := by
              simp [groupLookup, hwg, hsn]
            have hlen : 1 < snaps.length := by
              rw [hlksnaps, hG0len]
              exact hbig
            have hdel : f ∈ delsOfAll gs := by
              refine delsOfAll_all_mem gs (w, wg)
                (assocGet_some_mem gs w wg hwg) f ?_
              refine delsOf_all_mem wg (opp, snaps)
                (assocGet_some_mem wg opp snaps hsn)
                (by show 1 < snaps.length; omega) f ?_
              exact List.mem_map.mpr ⟨e, hsnaps, hef⟩
            have : dels'.contains f = false := by
              have := hfnd.2
              simpa using this
            rw [hdels] at this
            have hcontr : (delsOfAll gs).contains f = true := by
              simpa [List.contains] using hdel
            rw [hcontr] at this
            cases this
    rw [hpart1]
    simp only [List.length_nil, Nat.zero_add]
    refine filterMap_length_le_one _ _ (get_snapshot_path w opp.1 opp.2 0) ?_ ?_
    · refine List.Nodup.filter _ (List.Nodup.filter _ ?_)
      exact (List.nodup_append.mp hndall).2.1
    · intro k hk hs
      have hknew : k ∈ newKeys :=
        List.mem_of_mem_filter (List.mem_of_mem_filter hk)
      obtain ⟨we, hwe, oe, hoe, hlen, hkpath⟩ := hnk k hknew
      have hslash : '/' ∉ oe.1.1.data := by
        refine group_opp_no_slash _ _ _ hgs we hwe oe hoe ?_
        intro hnil
        rw [hnil] at hlen
        simp at hlen
      have hparse : parseCompKey k = .ok (some (we.1, oe.1.1, oe.1.2, 0)) := by
        rw [hkpath]
        exact parseCompKey_snapshot_path we.1 oe.1.1 oe.1.2 0 hslash
      obtain ⟨e, hge⟩ := Option.isSome_iff_exists.mp hs
      obtain ⟨hef, hparse2, hle2⟩ := keyEntry_some_inv max w opp k e hge
      rw [hparse] at hparse2
      simp only [Except.ok.injEq, Option.some.injEq, Prod.mk.injEq] at hparse2
      obtain ⟨hw1, hop1, hp1, _⟩ := hparse2
      rw [hkpath, hw1, hop1, hp1]
  · -- the first-run group had at most one delta: nothing was merged for it
    have hsmall : ((listBinAll store).filterMap (keyEntry max w opp)).length ≤ 1 := by
      omega
    have hpart1 : ((((keysOf store).filter (fun j => !(dels'.contains j))).filter
        (fun k => strEnds k ".bin")).filterMap (keyEntry max w opp)).length ≤ 1 := by
      have hsub1 : List.Sublist
          (((keysOf store).filter (fun j => !(dels'.contains j))).filter
            (fun k => strEnds k ".bin"))
          ((keysOf store).filter (fun k => strEnds k ".bin")) := by
        rw [List.filter_comm]
        exact List.filter_sublist _
      have := (hsub1.filterMap (keyEntry max w opp)).length_le
      rw [← hbinlist] at this
      omega
    have hpart2 : ((newKeys.filter (fun j => !(dels'.contains j))).filter
        (fun k => strEnds k ".bin")).filterMap (keyEntry max w opp) = [] := by
      rw [List.filterMap_eq_nil_iff]
      intro k hk
      cases hg : keyEntry max w opp k with
      | none => rfl
      | some e =>
        exfalso
        have hknew : k ∈ newKeys :=
          List.mem_of_mem_filter (List.mem_of_mem_filter hk)
        obtain ⟨we, hwe, oe, hoe, hlen, hkpath⟩ := hnk k hknew
        have hslash : '/' ∉ oe.1.1.data := by
          refine group_opp_no_slash _ _ _ hgs we hwe oe hoe ?_
          intro hnil
          rw [hnil] at hlen
          simp at hlen
        have hparse : parseCompKey k = .ok (some (we.1, oe.1.1, oe.1.2, 0)) := by
          rw [hkpath]
          exact parseCompKey_snapshot_path we.1 oe.1.1 oe.1.2 0 hslash
        obtain ⟨hef, hparse2, hle2⟩ := keyEntry_some_inv max w opp k e hg
        rw [hparse] at hparse2
        simp only [Except.ok.injEq, Option.some.injEq, Prod.mk.injEq] at hparse2
        obtain ⟨hw1, hop1, hp1, _⟩ := hparse2
        have hwf := get_uncoordinated_wf _ _ _ hgs
        have hlk : oe.2 = groupLookup gs we.1 oe.1 :=
          mem_groups_eq_lookup gs we.1 we.2 oe.1 oe.2 hwf hwe hoe
        have : oe.2.length ≤ 1 := by
          rw [hlk, hw1, show oe.1 = opp from Prod.ext hop1 hp1, hG0len]
          omega
        omega
    rw [hpart2]
    simp only [List.length_nil]
    omega

/-- Claim C6: compaction is idempotent.  After a successful run at bound
`max` over a store with unduplicated keys, a second run at the same bound
(with no writes in between) classifies at most one delta into every
worker/operator/partition group, performs no merges and no deletions, and
returns the store unchanged. -/
theorem compaction_idempotent (store : Store) (max : Int) (out : Store)
    (hnd : (keysOf store).Nodup)
    (h1 : start_uncoordinated_snapshot_compaction store max = .ok out) :
    (∃ gs2, get_uncoordinated_snapshots_per_worker (listBinAll out) max = .ok gs2 ∧
      ∀ we ∈ gs2, ∀ oe ∈ we.2, oe.2.length ≤ 1) ∧
    start_uncoordinated_snapshot_compaction out max = .ok out := by
  unfold start_uncoordinated_snapshot_compaction compact_uncoordinated_deltas at h1
  cases hgs : get_uncoordinated_snapshots_per_worker (listBinAll store) max with
  | error e => rw [hgs] at h1; cases h1
  | ok gs =>
    rw [hgs] at h1
    simp only at h1
    cases hcw : compactWorkers gs (store, []) with
    | error e => rw [hcw] at h1; cases h1
    | ok acc =>
      rw [hcw] at h1
      simp only at h1
      obtain ⟨st', dels'⟩ := acc
      injection h1 with h1
      obtain ⟨hdels', hget', nk, hkeys', hnk', hndimp'⟩ :=
        compactWorkers_spec gs store [] (st', dels') hcw
      have hdels : dels' = delsOfAll gs := by simpa using hdels'
      have hkeys : keysOf st' = keysOf store ++ nk := hkeys'
      have hnk : ∀ k ∈ nk, ∃ we ∈ gs, ∃ oe ∈ we.2, 1 < oe.2.length ∧
          k = get_snapshot_path we.1 oe.1.1 oe.1.2 0 := hnk'
      have hndall : (keysOf store ++ nk).Nodup := hndimp' hnd
      have hcount := fun w opp =>
        second_run_count store max gs st' dels' nk hgs hdels hkeys hnk hndall w opp
      subst h1
      have hbinlist : listBinAll (dels'.foldl storeRemove st') =
          (keysOf (dels'.foldl storeRemove st')).filter
            (fun k => strEnds k ".bin") := rfl
      have hnoerr : ∀ f ∈ listBinAll (dels'.foldl storeRemove st'),
          parseCompKey f ≠ .error () := by
        intro f hf
        rw [hbinlist] at hf
        have hfk : f ∈ keysOf (dels'.foldl storeRemove st') :=
          List.mem_of_mem_filter hf
        have hfbin : strEnds f ".bin" = true := (List.mem_filter.mp hf).2
        have hk2 : f ∈ keysOf store ++ nk := by
          rw [keysOf_removeList, hkeys] at hfk
          exact List.mem_of_mem_filter hfk
        rcases List.mem_append.mp hk2 with hf1 | hf2
        · have hfs : f ∈ listBinAll store := List.mem_filter.mpr ⟨hf1, hfbin⟩
          exact get_uncoordinated_no_error _ _ _ hgs f hfs
        · obtain ⟨we, hwe, oe, hoe, hlen, rfl⟩ := hnk f hf2
          have hslash : '/' ∉ oe.1.1.data := by
            refine group_opp_no_slash _ _ _ hgs we hwe oe hoe ?_
            intro hnil
            rw [hnil] at hlen
            simp at hlen
          rw [parseCompKey_snapshot_path we.1 oe.1.1 oe.1.2 0 hslash]
          intro hh
          cases hh
      obtain ⟨gs2', hb2⟩ :=
        buildGroupsAux_ok_of_no_error max (listBinAll (dels'.foldl storeRemove st'))
          hnoerr []
      have hgs2 : get_uncoordinated_snapshots_per_worker
          (listBinAll (dels'.foldl storeRemove st')) max = .ok (sortGroups gs2') := by
        unfold get_uncoordinated_snapshots_per_worker
        rw [hb2]
      have hwf2 := get_uncoordinated_wf _ _ _ hgs2
      have hsizes : ∀ we ∈ sortGroups gs2', ∀ oe ∈ we.2, oe.2.length ≤ 1 := by
        intro we hwe oe hoe
        have hlk : oe.2 = groupLookup (sortGroups gs2') we.1 oe.1 :=
          mem_groups_eq_lookup _ we.1 we.2 oe.1 oe.2 hwf2 hwe hoe
        rw [hlk, get_uncoordinated_lookup _ _ _ hgs2, length_sortByFst]
        exact hcount we.1 oe.1
      refine ⟨⟨sortGroups gs2', hgs2, hsizes⟩, ?_⟩
      unfold start_uncoordinated_snapshot_compaction
      exact compact_no_op _ _ max (sortGroups gs2') hgs2 hsizes

/-- Witness for C6: compacting deltas at ids 1 and 2 into a base, then
compacting again with the same bound, leaves the store unchanged and finds
at most one delta per group on the second pass. -/
theorem compaction_idempotent_witness :
    ((keysOf [(get_snapshot_path 0 "orders" 0 1, Payload.kv [("a", 1)]),
              (get_snapshot_path 0 "orders" 0 2, Payload.kv [("b", 2)])]).Nodup) ∧
    (start_uncoordinated_snapshot_compaction
        [(get_snapshot_path 0 "orders" 0 1, Payload.kv [("a", 1)]),
         (get_snapshot_path 0 "orders" 0 2, Payload.kv [("b", 2)])] 2
      = .ok [(get_snapshot_path 0 "orders" 0 0, Payload.kv [("a", 1), ("b", 2)])]) ∧
    ((∃ gs2, get_uncoordinated_snapshots_per_worker
        (listBinAll [(get_snapshot_path 0 "orders" 0 0, Payload.kv [("a", 1), ("b", 2)])]) 2
        = .ok gs2 ∧ ∀ we ∈ gs2, ∀ oe ∈ we.2, oe.2.length ≤ 1) ∧
      start_uncoordinated_snapshot_compaction
        [(get_snapshot_path 0 "orders" 0 0, Payload.kv [("a", 1), ("b", 2)])] 2
      = .ok [(get_snapshot_path 0 "orders" 0 0, Payload.kv [("a", 1), ("b", 2)])]) :=
  ⟨by decide, rfl,
    compaction_idempotent
      [(get_snapshot_path 0 "orders" 0 1, Payload.kv [("a", 1)]),
       (get_snapshot_path 0 "orders" 0 2, Payload.kv [("b", 2)])] 2
      [(get_snapshot_path 0 "orders" 0 0, Payload.kv [("a", 1), ("b", 2)])]
      (by decide) rfl⟩

/-! ## Claim theorems (concrete evaluations and easy general facts) -/

/-- Claim C1 (code bug): compacting a group whose deltas are at ids 0 and 1
with bound 1 does **not** leave a single merged base at id 0 — the merged
base is written to `.../0.bin`, which is also a source key of the group, so
the cleanup pass deletes it and the run ends with an empty store: the
group's state is lost entirely. -/
theorem compact_deletes_base_with_source_id_zero :
    start_uncoordinated_snapshot_compaction
      [(get_snapshot_path 0 "orders" 0 0, .kv [("a", 1)]),
       (get_snapshot_path 0 "orders" 0 1, .kv [("b", 2)])] 1
      = .ok [] := rfl

/-- Claim C2 (code bug): recovery does **not** retain keys from earlier
deltas when a later qualifying delta is empty — the empty delta is falsy,
so the `else` branch replaces the accumulated dict with it, wiping the
state merged so far.  With deltas id 0 = `{x:1}` and id 1 = `{}` at target
1 the recovered state is `{}`, not `{x:1}`. -/
theorem recover_empty_delta_wipes_state :
    (retrieve_snapshot ⟨0, 0⟩
      [(get_snapshot_path 0 "orders" 0 0, .kv [("x", 1)]),
       (get_snapshot_path 0 "orders" 0 1, .kv [])] 1 [("orders", 0)]).2
      = .ok ⟨[(("orders", 0), [])], some [], some [], 0, 0⟩ := rfl

/-- Claim C4, counterexample: `recover(-1, [("orders",0)])` on any store
does not return an empty offset *map* — the offsets come back as Python
`None` (and the state dict has no entry for the partition). -/
theorem recover_fresh_start_cex :
    ¬ ∃ r : RetrieveResult,
        (retrieve_snapshot ⟨7, 3⟩ ([] : Store) (-1) [("orders", 0)]).2 = .ok r ∧
        r.inOffs = some [] := by
  rintro ⟨r, h1, h2⟩
  have hr : (retrieve_snapshot ⟨7, 3⟩ ([] : Store) (-1) [("orders", 0)]).2
      = .ok ⟨[], none, none, 0, 0⟩ := rfl
  rw [hr] at h1
  cases h1
  cases h2

/-- Claim C4 as amended: for every store and partition set,
`recover(-1, …)` returns the overall empty state dict (no per-partition
entries), `None` in place of both offset maps, epoch 0 and t-counter 0,
raises no error, and resets the worker's snapshot counter to 0. -/
theorem recover_fresh_start (self : UncoordinatedSnapshotsMinio) (store : Store)
    (regs : List OperatorPartition) :
    retrieve_snapshot self store (-1) regs
      = ({ self with snapshot_id := 0 }, .ok ⟨[], none, none, 0, 0⟩) := by
  unfold retrieve_snapshot
  norm_num

/-- Claim C7, counterexample: a listed key with a non-integer where the
snapshot id is expected (`uncoordinated/0/orders/0/x.bin`) raises an
uncaught `ValueError` in both the compactor's grouping and in recovery —
it is not silently skipped. -/
theorem malformed_key_raises :
    get_uncoordinated_snapshots_per_worker ["uncoordinated/0/orders/0/x.bin"] 5
        = .error () ∧
      (retrieve_snapshot ⟨0, 0⟩ [("uncoordinated/0/orders/0/x.bin", .kv [])] 0
        [("orders", 0)]).2 = .error () :=
  ⟨rfl, rfl⟩

/-- Claim C8, counterexample: a registered partition with no deltas at all
is *omitted* from the recovered state dict — there is no entry mapping it
to an empty state map. -/
theorem partition_without_deltas_omitted_cex :
    ¬ ∃ r : RetrieveResult,
        (retrieve_snapshot ⟨0, 0⟩ ([] : Store) 0 [("orders", 0)]).2 = .ok r ∧
        assocGet r.data ("orders", 0) = some [] := by
  rintro ⟨r, h1, h2⟩
  have hr : (retrieve_snapshot ⟨0, 0⟩ ([] : Store) 0 [("orders", 0)]).2
      = .ok ⟨[], some [], some [], 0, 0⟩ := rfl
  rw [hr] at h1
  cases h1
  cases h2

/-- Claim C10: every call to `retrieve_snapshot` assigns
`self.snapshot_id = snapshot_id + 1` before any other work — the new
counter is `t + 1` regardless of the store, the partitions, or whether the
rest of the call errors, and in particular after `recover(-1, …)` the
worker's next snapshot id is 0. -/
theorem snapshot_counter_set_on_recover (self : UncoordinatedSnapshotsMinio)
    (store : Store) (t : Int) (regs : List OperatorPartition) :
    (retrieve_snapshot self store t regs).1.snapshot_id = t + 1 ∧
    (retrieve_snapshot self store (-1) regs).1.snapshot_id = 0 := by
  constructor
  · unfold retrieve_snapshot
    by_cases ht : t = -1 <;> simp [ht]
  · rfl

/-- Claim C3: on a non-fresh recovery (`t ≠ -1`), the recovered sequencer
metadata is a full replacement — either no listed sequencer delta has id
at most the target and the offsets/epoch/t-counter come back as the empty
dicts and zeros they were initialized to, or there is a qualifying delta
of maximal id whose *entire* record (offsets, epoch, t-counter wholesale,
no per-field merging) is the result. -/
theorem sequencer_recovery_full_replacement
    (self : UncoordinatedSnapshotsMinio) (store : Store) (t : Int)
    (regs : List OperatorPartition) (entries : List (Int × String))
    (r : RetrieveResult)
    (ht : t ≠ -1)
    (hord : sequencer_merge_order store self.worker_id = .ok entries)
    (hok : (retrieve_snapshot self store t regs).2 = .ok r) :
    ((∀ e ∈ entries, t < e.1) ∧ r.inOffs = some [] ∧ r.outOffs = some [] ∧
      r.epoch = 0 ∧ r.tCounter = 0) ∨
    (∃ e ∈ entries, e.1 ≤ t ∧ (∀ e' ∈ entries, e'.1 ≤ t → e'.1 ≤ e.1) ∧
      ∃ rec, readSeq store e.2 = .ok rec ∧ r.inOffs = some rec.inOffs ∧
        r.outOffs = some rec.outOffs ∧ r.epoch = rec.epoch ∧
        r.tCounter = rec.tCounter) := by
  unfold retrieve_snapshot at hok
  rw [if_neg ht] at hok
  simp only at hok
  cases hp : recoverPartitions store self.worker_id t regs [] with
  | error e => rw [hp] at hok; cases hok
  | ok data =>
    rw [hp, hord] at hok
    simp only at hok
    cases hsf : seqFold store t entries ⟨[], [], 0, 0⟩ with
    | error e => rw [hsf] at hok; cases hok
    | ok rec =>
      rw [hsf] at hok
      cases hok
      have hsorted : SortedFst entries := by
        rw [sequencer_merge_order_eq] at hord
        exact snapshot_merge_order_sorted _ _ _ hord
      rcases seqFold_sorted_last store t entries ⟨[], [], 0, 0⟩ rec hsorted hsf with
        ⟨hall, rfl⟩ | ⟨e, he, hle, hmax, hread⟩
      · exact Or.inl ⟨hall, rfl, rfl, rfl, rfl⟩
      · exact Or.inr ⟨e, he, hle, hmax, rec, hread, rfl, rfl, rfl, rfl⟩

/-- Witness for C3: worker 2 with sequencer records id 0 (offsets
`{p0:10}`, epoch 1, t 2) and id 1 (offsets `{p0:20,p1:5}`, epoch 3, t 4),
recovered at target 1: the result is exactly the id-1 record. -/
theorem sequencer_recovery_full_replacement_witness :
    ((1 : Int) ≠ -1) ∧
    (sequencer_merge_order
        [(get_sequencer_path 2 0, .seq ⟨[(("p0", 0), 10)], [], 1, 2⟩),
         (get_sequencer_path 2 1, .seq ⟨[(("p0", 0), 20), (("p1", 1), 5)], [], 3, 4⟩)] 2
      = .ok [(0, get_sequencer_path 2 0), (1, get_sequencer_path 2 1)]) ∧
    ((retrieve_snapshot ⟨2, 0⟩
        [(get_sequencer_path 2 0, .seq ⟨[(("p0", 0), 10)], [], 1, 2⟩),
         (get_sequencer_path 2 1, .seq ⟨[(("p0", 0), 20), (("p1", 1), 5)], [], 3, 4⟩)]
        1 []).2
      = .ok ⟨[], some [(("p0", 0), 20), (("p1", 1), 5)], some [], 3, 4⟩) ∧
    (((∀ e ∈ [((0 : Int), get_sequencer_path 2 0), (1, get_sequencer_path 2 1)],
          (1 : Int) < e.1) ∧
        (some [(("p0", 0), 20), (("p1", 1), 5)] : Option Offsets) = some [] ∧
        (some [] : Option Offsets) = some [] ∧
        (3 : Int) = 0 ∧ (4 : Int) = 0) ∨
      (∃ e ∈ [((0 : Int), get_sequencer_path 2 0), (1, get_sequencer_path 2 1)],
        e.1 ≤ 1 ∧
        (∀ e' ∈ [((0 : Int), get_sequencer_path 2 0), (1, get_sequencer_path 2 1)],
          e'.1 ≤ 1 → e'.1 ≤ e.1) ∧
        ∃ rec, readSeq
            [(get_sequencer_path 2 0, .seq ⟨[(("p0", 0), 10)], [], 1, 2⟩),
             (get_sequencer_path 2 1, .seq ⟨[(("p0", 0), 20), (("p1", 1), 5)], [], 3, 4⟩)]
            e.2 = .ok rec ∧
          (some [(("p0", 0), 20), (("p1", 1), 5)] : Option Offsets) = some rec.inOffs ∧
          (some [] : Option Offsets) = some rec.outOffs ∧ (3 : Int) = rec.epoch ∧
          (4 : Int) = rec.tCounter)) :=
  by
  refine ⟨by decide, rfl, rfl, ?_⟩
  exact sequencer_recovery_full_replacement ⟨2, 0⟩
    [(get_sequencer_path 2 0, .seq ⟨[(("p0", 0), 10)], [], 1, 2⟩),
     (get_sequencer_path 2 1, .seq ⟨[(("p0", 0), 20), (("p1", 1), 5)], [], 3, 4⟩)]
    1 [] [(0, get_sequencer_path 2 0), (1, get_sequencer_path 2 1)]
    ⟨[], some [(("p0", 0), 20), (("p1", 1), 5)], some [], 3, 4⟩
    (by decide) rfl rfl

/-- Claim C7 as amended: a listed key outside the `uncoordinated/`
namespace, or with fewer than five path segments, is silently skipped by
the compactor's grouping — inserting such a key anywhere in the listing
leaves the computed groups unchanged; (a non-integer in an integer
position, by contrast, raises — see the counterexample). -/
theorem compactor_skips_short_keys (files1 files2 : List String) (f : String)
    (max : Int)
    (h : strStarts f "uncoordinated/" = false ∨ (pySplit '/' f).length < 5) :
    get_uncoordinated_snapshots_per_worker (files1 ++ f :: files2) max
      = get_uncoordinated_snapshots_per_worker (files1 ++ files2) max := by
  unfold get_uncoordinated_snapshots_per_worker
  rw [buildGroupsAux_skip_mid max f (parseCompKey_skip f h)]

/-- Witness for C7: inserting the four-segment key
`uncoordinated/0/sequencer/3.bin` into a listing leaves the groups
unchanged. -/
theorem compactor_skips_short_keys_witness :
    (strStarts "uncoordinated/0/sequencer/3.bin" "uncoordinated/" = false ∨
      (pySplit '/' "uncoordinated/0/sequencer/3.bin").length < 5) ∧
    get_uncoordinated_snapshots_per_worker
        (["uncoordinated/0/orders/0/1.bin"] ++ "uncoordinated/0/sequencer/3.bin" ::
          ["uncoordinated/0/orders/0/2.bin"]) 5
      = get_uncoordinated_snapshots_per_worker
        (["uncoordinated/0/orders/0/1.bin"] ++ ["uncoordinated/0/orders/0/2.bin"]) 5 :=
  ⟨Or.inr (by decide),
    compactor_skips_short_keys ["uncoordinated/0/orders/0/1.bin"]
      ["uncoordinated/0/orders/0/2.bin"] "uncoordinated/0/sequencer/3.bin" 5
      (Or.inr (by decide))⟩

/-- Claim C8 as amended: on a non-fresh recovery, an owned operator
partition whose merge order contains no qualifying delta (no listed keys
at all, or every listed delta above the target) produces **no entry** in
the recovered state dict (rather than an entry with an empty map), and
the recovery as a whole can still succeed. -/
theorem partition_without_deltas_omitted
    (self : UncoordinatedSnapshotsMinio) (store : Store) (t : Int)
    (regs : List OperatorPartition) (op : OperatorPartition)
    (l : List (Int × String)) (r : RetrieveResult)
    (ht : t ≠ -1)
    (_hreg : op ∈ regs)
    (hord : snapshot_merge_order store (partitionDir self.worker_id op) = .ok l)
    (hhigh : ∀ e ∈ l, t < e.1)
    (hok : (retrieve_snapshot self store t regs).2 = .ok r) :
    assocGet r.data op = none := by
  unfold retrieve_snapshot at hok
  rw [if_neg ht] at hok
  simp only at hok
  cases hp : recoverPartitions store self.worker_id t regs [] with
  | error e => rw [hp] at hok; cases hok
  | ok data =>
    rw [hp] at hok
    simp only at hok
    cases hso : sequencer_merge_order store self.worker_id with
    | error e => rw [hso] at hok; cases hok
    | ok so =>
      rw [hso] at hok
      simp only at hok
      cases hsf : seqFold store t so ⟨[], [], 0, 0⟩ with
      | error e => rw [hsf] at hok; cases hok
      | ok rec =>
        rw [hsf] at hok
        cases hok
        have := recoverPartitions_get_none store self.worker_id t op
          (fun l' hl' => by
            rw [hord] at hl'
            cases hl'
            exact hhigh)
          regs [] data hp
        simpa [assocGet] using this

/-- Witness for C8: one delta at id 5 for `("orders", 0)`, recovered at
target 0 — the partition is registered, its only delta is above the
target, recovery succeeds, and the result has no entry for the partition. -/
theorem partition_without_deltas_omitted_witness :
    ((0 : Int) ≠ -1) ∧
    (("orders", (0 : Int)) ∈ [(("orders", (0 : Int)))]) ∧
    (snapshot_merge_order [(get_snapshot_path 0 "orders" 0 5, .kv [("z", 9)])]
        (partitionDir 0 ("orders", 0))
      = .ok [(5, get_snapshot_path 0 "orders" 0 5)]) ∧
    (∀ e ∈ [((5 : Int), get_snapshot_path 0 "orders" 0 5)], (0 : Int) < e.1) ∧
    ((retrieve_snapshot ⟨0, 0⟩ [(get_snapshot_path 0 "orders" 0 5, .kv [("z", 9)])]
        0 [("orders", 0)]).2 = .ok ⟨[], some [], some [], 0, 0⟩) ∧
    assocGet (RetrieveResult.data ⟨[], some [], some [], 0, 0⟩) ("orders", (0 : Int))
      = none :=
  ⟨by decide, by decide, rfl, by decide, rfl,
    partition_without_deltas_omitted ⟨0, 0⟩
      [(get_snapshot_path 0 "orders" 0 5, .kv [("z", 9)])] 0 [("orders", 0)]
      ("orders", 0) [(5, get_snapshot_path 0 "orders" 0 5)]
      ⟨[], some [], some [], 0, 0⟩ (by decide) (by decide) rfl (by decide) rfl⟩

end Styx
